import Mathlib

set_option maxRecDepth 8000

/-!
Verification development for the pypeFLOW controller
(`pypeflow/controller.py`).

The development shallowly embeds the two cores of the module:

* `PypeGraph.tSort` — the destructive Kahn topological sort
  (`PypeGraph.tSort`, controller.py lines 134-157), over an explicit
  arena representation of the cyclic `PypeNode` object graph: the
  per-node `_outNodes` / `_inNodes` sets are total functions from URLs
  to neighbour lists, and `_allNodes` / `_allEdges` are lists.  Python
  set iteration order is represented by the order of those lists, which
  makes the iteration-order dependence of the source explicit.

* `_PypeConcurrentWorkflow._refreshTargets` — the concurrent refresh
  loop (lines 551-751), as a deterministic state machine.  One loop
  iteration (`refreshTick`) is admission scan (`scanTask` over the
  sorted task list), dispatch (`submitReadyJobs`), the sleep back-off
  update (`sleepUpdate`) and the message-queue drain (`drainAll`)
  followed by the prompt-failure check (`promptFailureCheck`).  The
  environment supplies, per iteration, the number of alive worker
  threads and the drained messages (`TickInput`); `wfRun` states the
  message discipline of the real system (a message is only ever
  delivered for a task whose status is `submitted`, or `started` after
  its own start notification).  Side effects that matter to the claims
  (status assignments, `finalize()` calls, release of active data
  objects, the `_runCallback` invocation, thread starts) are recorded
  in an event trace.

Python `set` objects are embedded as duplicate-free lists (`setAdd`
inserts only when absent; `List.erase` is `set.remove`); `jobStatusMap`
is a total function from URLs to statuses, seeded exactly as in the
source from the sorted task list.  Counters that Python keeps as `int`
are `Int` (or `Nat` where the source only increments), and the
IEEE-754 binary64 `sleep_time` is carried as the exact rational value
of the double it holds, with `roundDouble` (round to nearest, ties to
even) applied after each addition exactly as the hardware does.
-/

/-- URLs (`task://...`, `file://...`) are opaque string identifiers. -/
abbrev Url := String

/-! ## The dependence DAG and `tSort` (controller.py 57-157) -/

/-- The `PypeGraph` arena.  `allNodes` and `allEdges` are the sets
`_allNodes` and `_allEdges` (as lists: the list order stands for the
Python set iteration order); `outNodes u` / `inNodes u` are the mutable
per-node sets `_outNodes` / `_inNodes` of the `PypeNode` registered for
URL `u`.  An edge `(u, v)` means `v` depends on `u` (`v pype:prereq u`
in the RDF graph): `__init__` adds `n1.addAnOutNode(n2)` for
`n1 = node(o)`, `n2 = node(s)` on a row `s pype:prereq o`. -/
structure PypeGraph where
  allNodes : List Url
  allEdges : List (Url × Url)
  outNodes : Url → List Url
  inNodes : Url → List Url

/-- `PypeNode.inDegree` (controller.py 79-81). -/
def PypeGraph.inDegree (g : PypeGraph) (u : Url) : Nat :=
  (g.inNodes u).length

/-- The `TaskExecutionError(" Circle detectd ...")` raised by `tSort`. -/
inductive TSortError where
  | circleDetected
deriving DecidableEq

/-- Working state of the `while len(S) != 0` loop in `tSort`:
`edges` is the local copy `edges = self._allEdges.copy()`, `S` the
worklist, `L` the output.  `S` is kept in pop order: Python appends to
and pops from the tail of its list, so the head of this `S` is the next
node `S.pop()` returns, and `S.append(m)` is modelled by consing `m`. -/
structure TSortState where
  edges : List (Url × Url)
  S : List Url
  L : List Url
  outN : Url → List Url
  inN : Url → List Url

/-- One step of the `for m in outNodes:` body of `tSort` (controller.py
147-152): remove the edge `(n, m)` from the local edge set, remove `m`
from `n._outNodes` and `n` from `m._inNodes` (destructively, on the
shared node arena), and append `m` to the worklist when its in-degree
has become 0. -/
def processOutStep (n m : Url) (st : TSortState) : TSortState :=
  { edges := st.edges.erase (n, m)
    S := if ((st.inN m).erase n).isEmpty then m :: st.S else st.S
    L := st.L
    outN := fun u => if u = n then (st.outN u).erase m else st.outN u
    inN := fun u => if u = m then (st.inN m).erase n else st.inN u }

/-- The `for m in outNodes:` loop of `tSort`, folded over the copy
`outNodes = n._outNodes.copy()`. -/
def processOut (n : Url) : List Url → TSortState → TSortState
  | [], st => st
  | m :: ms, st => processOut n ms (processOutStep n m st)

/-- One iteration of the `while` loop: `n = S.pop(); L.append(n)`,
then process the copy of `n._outNodes`. -/
def tSortIter (st : TSortState) (n : Url) (rest : List Url) : TSortState :=
  processOut n (st.outN n)
    { edges := st.edges, S := rest, L := st.L ++ [n]
      outN := st.outN, inN := st.inN }

/-- The `while len(S) != 0` loop.  The fuel argument is a termination
device of the embedding only; `tSort` passes enough of it for every
graph the claims quantify over (proved below), so the `none` branch is
never the value of the model on those graphs. -/
def tSortGo : Nat → TSortState → Option TSortState
  | fuel, st =>
    match st.S with
    | [] => some st
    | n :: rest =>
      match fuel with
      | 0 => none
      | f + 1 => tSortGo f (tSortIter st n rest)

/-- Entry state of the `tSort` loop: `edges = self._allEdges.copy()`,
`S = [x for x in self._allNodes if x.inDegree == 0]` (stored in pop
order), `L = []`, and the live node arena. -/
def tSortInit (g : PypeGraph) : TSortState :=
  { edges := g.allEdges
    S := (g.allNodes.filter (fun x => g.inDegree x = 0)).reverse
    L := []
    outN := g.outNodes
    inN := g.inNodes }

/-- `PypeGraph.tSort` (controller.py 134-157).  Returns the result
(`[x.obj for x in L]`, or the cycle error when the local edge set is
not exhausted) together with the graph after the call: the node
adjacency sets are mutated in place, while `_allNodes` and `_allEdges`
are untouched (`tSort` works on a copy of the edge set). -/
def PypeGraph.tSort (g : PypeGraph) : Except TSortError (List Url) × PypeGraph :=
  match tSortGo (g.allNodes.length + g.allEdges.length + 1) (tSortInit g) with
  | none => (Except.error TSortError.circleDetected, g)
  | some st =>
      (if st.edges.isEmpty then Except.ok st.L else Except.error TSortError.circleDetected,
       { g with outNodes := st.outN, inNodes := st.inN })

/-- Well-formedness of a `PypeGraph` as `PypeGraph.__init__` builds it:
the edge set has no duplicates, nodes neither, edges connect registered
nodes and agree with the per-node adjacency sets in both directions. -/
def PypeGraph.Coherent (g : PypeGraph) : Prop :=
  g.allEdges.Nodup ∧ g.allNodes.Nodup ∧
  (∀ e ∈ g.allEdges, e.1 ∈ g.allNodes ∧ e.2 ∈ g.allNodes ∧
      e.2 ∈ g.outNodes e.1 ∧ e.1 ∈ g.inNodes e.2) ∧
  (∀ u ∈ g.allNodes, (g.outNodes u).Nodup ∧ (g.inNodes u).Nodup ∧
      (∀ v ∈ g.outNodes u, (u, v) ∈ g.allEdges) ∧
      (∀ v ∈ g.inNodes u, (v, u) ∈ g.allEdges))

instance (g : PypeGraph) : Decidable g.Coherent := by
  unfold PypeGraph.Coherent; infer_instance

instance {ε α : Type} [DecidableEq ε] [DecidableEq α] : DecidableEq (Except ε α) := fun a b =>
  match a, b with
  | Except.error e, Except.error f =>
      if h : e = f then isTrue (by rw [h]) else isFalse (by intro hc; cases hc; exact h rfl)
  | Except.error _, Except.ok _ => isFalse (by intro hc; cases hc)
  | Except.ok _, Except.error _ => isFalse (by intro hc; cases hc)
  | Except.ok x, Except.ok y =>
      if h : x = y then isTrue (by rw [h]) else isFalse (by intro hc; cases hc; exact h rfl)

/-- The directed edge relation of a graph. -/
def PypeGraph.edgeRel (g : PypeGraph) (u v : Url) : Prop := (u, v) ∈ g.allEdges

/-- Acyclicity: no URL reaches itself through a nonempty chain of
prereq edges. -/
def PypeGraph.Acyclic (g : PypeGraph) : Prop :=
  ∀ u, ¬ Relation.TransGen g.edgeRel u u

/-! ### The Kahn loop invariant -/

/-- Invariant of the `tSort` loop relative to the coherent graph the
loop started from: `L` and `S` are duplicate-free node lists, the local
edge set holds exactly the original edges whose source is unprocessed,
the arena adjacency reflects that, worklist members have in-degree 0,
every node is processed, queued, or still blocked, and `L` is
topologically sorted so far. -/
structure KahnInv (g : PypeGraph) (st : TSortState) : Prop where
  edges_nodup : st.edges.Nodup
  L_nodup : st.L.Nodup
  S_nodup : st.S.Nodup
  L_sub : ∀ u ∈ st.L, u ∈ g.allNodes
  S_sub : ∀ u ∈ st.S, u ∈ g.allNodes
  disj : ∀ u ∈ st.S, u ∉ st.L
  cover : ∀ u ∈ g.allNodes, u ∈ st.L ∨ u ∈ st.S ∨ st.inN u ≠ []
  edges_mem : ∀ e, e ∈ st.edges ↔ e ∈ g.allEdges ∧ e.1 ∉ st.L
  outN_eq : ∀ u, st.outN u = if u ∈ st.L then [] else g.outNodes u
  inN_nodup : ∀ u ∈ g.allNodes, (st.inN u).Nodup
  inN_mem : ∀ u ∈ g.allNodes, ∀ v, v ∈ st.inN u ↔ v ∈ g.inNodes u ∧ v ∉ st.L
  S_inN : ∀ u ∈ st.S, st.inN u = []
  topo : ∀ e ∈ g.allEdges, e.2 ∈ st.L → [e.1, e.2].Sublist st.L

/-! ## The concurrent refresh loop (controller.py 469-751) -/

/-- Task status values as used by `_refreshTargets`: the distinguished
constants `TaskInitialized`, `TaskDone` (the string message value
`"done"`), `TaskFail` (`"fail"`), the transient scheduler strings
`"ready"` and `"submitted"`, the `started, runflag: b` message strings,
and any other string stored by the drain (`unknown`). -/
inductive TaskStatus where
  | initialized
  | ready
  | submitted
  | done
  | fail
  | started (runflag : Bool)
  | unknown
deriving DecidableEq

/-- Messages delivered on `messageQueue`: `"done"`, `"fail"`,
`"started, runflag: 1"` / `"started, runflag: 0"`, or any other
string. -/
inductive Message where
  | done
  | fail
  | started (runflag : Bool)
  | other
deriving DecidableEq

/-- The drain stores the raw message string into `jobStatusMap`
(`self.jobStatusMap[str(URL)] = message`, line 699). -/
def Message.toStatus : Message → TaskStatus
  | Message.done => TaskStatus.done
  | Message.fail => TaskStatus.fail
  | Message.started b => TaskStatus.started b
  | Message.other => TaskStatus.unknown

/-- The slice of a `PypeTaskBase` object that `_refreshTargets` reads:
its URL, output and mutable data-object URLs, slot cost, the result of
`isSatisfied()` (a fixed predicate of the file system during one call),
and `getStatus()` at snapshot time (line 560). -/
structure TaskObj where
  url : Url
  outputDataObjs : List Url
  mutableDataObjs : List Url
  nSlots : Nat
  isSatisfied : Bool
  status : TaskStatus
deriving DecidableEq

/-- Static data of one `_refreshTargets` call: the topologically sorted
task list (`sortedTaskList`), the transitive task prereq map
(`prereqJobURLMap`, computed from `rdfGraph.transitive_objects` minus
the task itself, lines 567-575), and the two class-level caps. -/
structure SchedEnv where
  sortedTaskList : List TaskObj
  prereqJobURLMap : Url → List Url
  maxNumberTaskSlot : Int
  concurrentThreadAllowed : Int

/-- `self._pypeObjects[str(URL)]` restricted to tasks: look the URL up
in the sorted task list. -/
def SchedEnv.taskOf (env : SchedEnv) (url : Url) : TaskObj :=
  (env.sortedTaskList.find? (fun t => t.url = url)).getD
    { url := url, outputDataObjs := [], mutableDataObjs := [], nSlots := 1,
      isSatisfied := false, status := TaskStatus.unknown }

/-- Errors `_refreshTargets` can raise: the output-collision
`Exception` (line 633), the protocol violation for
`"started, runflag: 0"` (line 732), `TaskFailureError` (line 740) and
`LateTaskFailureError` (line 749) with the counts they report, and the
two `TaskExecutionError` paths of `_runCallback` (lines 404-421). -/
inductive SchedError where
  | outputCollision
  | protocolViolation
  | taskFailure (failed : Nat)
  | lateTaskFailure (failed succeeded : Nat)
  | callbackTypeError
  | callbackNotCallable
deriving DecidableEq

/-- Observable side effects of the scheduler, in program order. -/
inductive Event where
  | setStatus (url : Url) (st : TaskStatus)
  | submitThread (url : Url)
  | finalize (url : Url)
  | release (url : Url)
  | runCallback
deriving DecidableEq

/-- Python `set.add`: insert only when absent (sets are embedded as
duplicate-free lists). -/
def setAdd {α : Type} [DecidableEq α] (l : List α) (x : α) : List α :=
  if x ∈ l then l else l ++ [x]

/-! ### IEEE-754 binary64 arithmetic for `sleep_time`

The source's `sleep_time` is a Python float (an IEEE-754 binary64
double).  It is embedded as the exact rational value of the double it
holds; `roundDouble` is round-to-nearest, ties-to-even at 53 bits of
precision (exact for the normal range used here — the values never
leave `[0, 1.1]`, far from overflow and subnormals), and `doubleAdd`
is correctly rounded double addition.  All pieces are built from
`mkRat` and integer arithmetic so that they evaluate inside the
kernel. -/

/-- Fuel-driven floor base-2 logarithm on `Nat`. -/
def log2Fuel : Nat → Nat → Nat
  | 0, _ => 0
  | fuel + 1, n => if n < 2 then 0 else log2Fuel fuel (n / 2) + 1

/-- Floor base-2 logarithm of a natural number (0 at 0). -/
def natLog2 (n : Nat) : Nat := log2Fuel n n

/-- `q` times the integer power `2 ^ m`. -/
def mulPow2 (q : ℚ) (m : ℤ) : ℚ :=
  if 0 ≤ m then mkRat (q.num * 2 ^ m.toNat) q.den
  else mkRat q.num (q.den * 2 ^ (-m).toNat)

/-- Largest `e : ℤ` with `2 ^ e ≤ q`, for `q > 0`. -/
def ratFloorLog2 (q : ℚ) : ℤ :=
  let e0 : ℤ := (natLog2 q.num.toNat : ℤ) - (natLog2 q.den : ℤ)
  if q < mulPow2 1 e0 then e0 - 1 else e0

/-- Nearest integer to `x`, ties to even: the comparison of the
fractional part with `1/2` is done on `2 * (num - ⌊x⌋ * den)` versus
`den`. -/
def roundHalfEven (x : ℚ) : ℤ :=
  let f := ⌊x⌋
  let r2 : ℤ := 2 * (x.num - f * (x.den : ℤ))
  if r2 < (x.den : ℤ) then f
  else if ((x.den : ℤ)) < r2 then f + 1
  else if f % 2 = 0 then f else f + 1

/-- Round a rational to the nearest IEEE-754 binary64 double (round to
nearest, ties to even; exact for the normal range exercised here). -/
def roundDouble (q : ℚ) : ℚ :=
  if q = 0 then 0
  else
    let a := |q|
    let e := ratFloorLog2 a
    let m := mulPow2 (mkRat (roundHalfEven (mulPow2 a (52 - e))) 1) (e - 52)
    if q < 0 then -m else m

/-- The exact rational sum, written out on numerators and denominators
so it evaluates in the kernel. -/
def qAdd (a b : ℚ) : ℚ :=
  mkRat (a.num * (b.den : ℤ) + b.num * (a.den : ℤ)) (a.den * b.den)

/-- IEEE-754 binary64 addition: the exact sum rounded to the nearest
double. -/
def doubleAdd (a b : ℚ) : ℚ := roundDouble (qAdd a b)

/-- The double literal `0.1` of the source: `1/10` rounded to the
nearest binary64 value, `3602879701896397 / 2^55`. -/
def float0_1 : ℚ := roundDouble (mkRat 1 10)

/-- The back-off expression of line 694,
`sleep_time + 0.1 if (sleep_time < 1) else 1`, on the IEEE double
`sleep_time`. -/
def sleepStep (q : ℚ) : ℚ := if q < 1 then doubleAdd q float0_1 else 1

/-- `sleep_time` after `k` quiet iterations from 0. -/
def sleepIter (k : Nat) : ℚ := sleepStep^[k] 0

/-- The values `sleep_time` can hold: the iterates of the back-off from
0 (it stabilises at 1 from the twelfth iterate on). -/
def SleepReach (q : ℚ) : Prop := ∃ k : Nat, k ≤ 12 ∧ q = sleepIter k

/-- Mutable scheduler state of one `_refreshTargets` call
(lines 581-591): the status map, the ready queue
`jobsReadyToBeSubmitted`, the active output and mutable claim sets
(of `(taskURL, dataURL)` pairs), `updatedTaskURLs`, the counters, and
the IEEE-double `sleep_time` carried as an exact rational. -/
structure SchedState where
  jobStatusMap : Url → TaskStatus
  jobsReadyToBeSubmitted : List TaskObj
  activeDataObjs : List (Url × Url)
  mutableDataObjs : List (Url × Url)
  updatedTaskURLs : List Url
  nSubmittedJob : Int
  usedTaskSlots : Int
  failedJobCount : Nat
  succeededJobCount : Nat
  sleepTime : ℚ

/-- State at loop entry: `jobStatusMap` seeded from the sorted task
list (line 562), every collection empty, every counter zero. -/
def initState (env : SchedEnv) : SchedState :=
  { jobStatusMap := fun u =>
      ((env.sortedTaskList.find? (fun t => t.url = u)).map TaskObj.status).getD
        TaskStatus.unknown
    jobsReadyToBeSubmitted := []
    activeDataObjs := []
    mutableDataObjs := []
    updatedTaskURLs := []
    nSubmittedJob := 0
    usedTaskSlots := 0
    failedJobCount := 0
    succeededJobCount := 0
    sleepTime := 0 }

/-- One task's slice of the admission scan (the body of the
`for URL, taskObj, tStatus in sortedTaskList:` loop, lines 600-653).
In order: skip unless the status is `TaskInitialized`; skip unless
every transitive prereq task is `"done"`; skip (delay) on a mutable
collision with a different task; raise on an output collision with a
different task, checked only while `len(activeDataObjs) < 100`; on the
satisfied short-circuit set the status to `TaskDone` and `finalize()`;
otherwise mark `"ready"`, append to the ready queue and claim the
task's outputs and mutables. -/
def scanTask (env : SchedEnv) (s : SchedState) (t : TaskObj) :
    Except SchedError (SchedState × List Event) :=
  if s.jobStatusMap t.url ≠ TaskStatus.initialized then Except.ok (s, [])
  else
    if ∃ u ∈ env.prereqJobURLMap t.url, s.jobStatusMap u ≠ TaskStatus.done then
      Except.ok (s, [])
    else
      if ∃ d ∈ t.mutableDataObjs, ∃ p ∈ s.mutableDataObjs, d = p.2 ∧ t.url ≠ p.1 then
        Except.ok (s, [])
      else
        if s.activeDataObjs.length < 100 ∧
            ∃ d ∈ t.outputDataObjs, ∃ p ∈ s.activeDataObjs, d = p.2 ∧ t.url ≠ p.1 then
          Except.error SchedError.outputCollision
        else
          if (∀ u ∈ env.prereqJobURLMap t.url, u ∉ s.updatedTaskURLs) ∧
              t.isSatisfied = true then
            Except.ok
              ({ s with jobStatusMap := fun u =>
                  if u = t.url then TaskStatus.done else s.jobStatusMap u },
               [Event.setStatus t.url TaskStatus.done, Event.finalize t.url])
          else
            Except.ok
              ({ s with
                  jobStatusMap := fun u =>
                    if u = t.url then TaskStatus.ready else s.jobStatusMap u
                  jobsReadyToBeSubmitted := s.jobsReadyToBeSubmitted ++ [t]
                  activeDataObjs :=
                    t.outputDataObjs.foldl (fun acc d => setAdd acc (t.url, d))
                      s.activeDataObjs
                  mutableDataObjs :=
                    t.mutableDataObjs.foldl (fun acc d => setAdd acc (t.url, d))
                      s.mutableDataObjs },
               [Event.setStatus t.url TaskStatus.ready])

/-- The full admission scan over the sorted task list. -/
def scanList (env : SchedEnv) : List TaskObj → SchedState →
    Except SchedError (SchedState × List Event)
  | [], s => Except.ok (s, [])
  | t :: ts, s =>
    match scanTask env s t with
    | Except.error e => Except.error e
    | Except.ok (s1, e1) =>
      match scanList env ts s1 with
      | Except.error e => Except.error e
      | Except.ok (s2, e2) => Except.ok (s2, e1 ++ e2)

/-- The bookkeeping of one successful submission (lines 673-683):
`t.start()`, `nSubmittedJob += 1`, `usedTaskSlots += taskObj.nSlots`,
`jobStatusMap[URL] = "submitted"`. -/
def submitStep (s : SchedState) (t : TaskObj) : SchedState :=
  { s with
      nSubmittedJob := s.nSubmittedJob + 1
      usedTaskSlots := s.usedTaskSlots + (t.nSlots : Int)
      jobStatusMap := fun u =>
        if u = t.url then TaskStatus.submitted else s.jobStatusMap u }

/-- The dispatch loop `while jobsReadyToBeSubmitted:` (lines 668-685)
run on an explicit queue: submit the head while enough task slots are
free and fewer than `CONCURRENT_THREAD_ALLOWED` workers are alive,
otherwise break, leaving the rest queued. -/
def submitLoop (env : SchedEnv) : List TaskObj → Int → SchedState →
    SchedState × List Event
  | [], _, s => ({ s with jobsReadyToBeSubmitted := [] }, [])
  | t :: rest, numAliveThreads, s =>
    if env.maxNumberTaskSlot - s.usedTaskSlots ≥ (t.nSlots : Int) ∧
        numAliveThreads < env.concurrentThreadAllowed then
      ((submitLoop env rest (numAliveThreads + 1) (submitStep s t)).1,
       Event.submitThread t.url :: Event.setStatus t.url TaskStatus.submitted ::
         (submitLoop env rest (numAliveThreads + 1) (submitStep s t)).2)
    else ({ s with jobsReadyToBeSubmitted := t :: rest }, [])

/-- Dispatch applied to the queue stored in the state. -/
def submitReadyJobs (env : SchedEnv) (numAliveThreads : Int) (s : SchedState) :
    SchedState × List Event :=
  submitLoop env s.jobsReadyToBeSubmitted numAliveThreads
    { s with jobsReadyToBeSubmitted := [] }

/-- The back-off update after `time.sleep(sleep_time)`:
`sleep_time = sleep_time + 0.1 if (sleep_time < 1) else 1`
(line 694), in IEEE binary64 arithmetic. -/
def sleepUpdate (s : SchedState) : SchedState :=
  { s with sleepTime := sleepStep s.sleepTime }

/-- Processing one drained message (lines 695-734): reset
`sleep_time = 0`, record the URL in `updatedTaskURLs`, store the
message into `jobStatusMap`, and on `"done"` / `"fail"` decrement the
bookkeeping, count the result, call `finalize()` and release the task's
outputs and mutables from the active sets; `"started, runflag: 0"`
raises. -/
def drainOne (env : SchedEnv) (s : SchedState) (url : Url) (msg : Message) :
    Except SchedError (SchedState × List Event) :=
  let s0 : SchedState :=
    { s with
        sleepTime := 0
        updatedTaskURLs := setAdd s.updatedTaskURLs url
        jobStatusMap := fun u => if u = url then msg.toStatus else s.jobStatusMap u }
  match msg with
  | Message.done =>
      let successfullTask := env.taskOf url
      Except.ok
        ({ s0 with
            nSubmittedJob := s0.nSubmittedJob - 1
            usedTaskSlots := s0.usedTaskSlots - (successfullTask.nSlots : Int)
            succeededJobCount := s0.succeededJobCount + 1
            activeDataObjs :=
              successfullTask.outputDataObjs.foldl
                (fun acc o => acc.erase (successfullTask.url, o)) s0.activeDataObjs
            mutableDataObjs :=
              successfullTask.mutableDataObjs.foldl
                (fun acc o => acc.erase (successfullTask.url, o)) s0.mutableDataObjs },
         [Event.setStatus url Message.done.toStatus,
          Event.finalize successfullTask.url, Event.release successfullTask.url])
  | Message.fail =>
      let failedTask := env.taskOf url
      Except.ok
        ({ s0 with
            nSubmittedJob := s0.nSubmittedJob - 1
            usedTaskSlots := s0.usedTaskSlots - (failedTask.nSlots : Int)
            failedJobCount := s0.failedJobCount + 1
            activeDataObjs :=
              failedTask.outputDataObjs.foldl
                (fun acc o => acc.erase (failedTask.url, o)) s0.activeDataObjs
            mutableDataObjs :=
              failedTask.mutableDataObjs.foldl
                (fun acc o => acc.erase (failedTask.url, o)) s0.mutableDataObjs },
         [Event.setStatus url Message.fail.toStatus,
          Event.finalize failedTask.url, Event.release failedTask.url])
  | Message.started true => Except.ok (s0, [Event.setStatus url (Message.started true).toStatus])
  | Message.started false => Except.error SchedError.protocolViolation
  | Message.other => Except.ok (s0, [Event.setStatus url Message.other.toStatus])

/-- The `while not self.messageQueue.empty():` drain over the messages
the environment delivers this iteration. -/
def drainAll (env : SchedEnv) : List (Url × Message) → SchedState →
    Except SchedError (SchedState × List Event)
  | [], s => Except.ok (s, [])
  | (u, m) :: ms, s =>
    match drainOne env s u m with
    | Except.error e => Except.error e
    | Except.ok (s1, e1) =>
      match drainAll env ms s1 with
      | Except.error e => Except.error e
      | Except.ok (s2, e2) => Except.ok (s2, e1 ++ e2)

/-- The prompt-failure check after the drain (lines 739-740):
`if failedJobCount != 0 and (exitOnFailure or succeededJobCount == 0):
raise TaskFailureError(...)`. -/
def promptFailureCheck (exitOnFailure : Bool) (s : SchedState) :
    Except SchedError Unit :=
  if s.failedJobCount ≠ 0 ∧ (exitOnFailure = true ∨ s.succeededJobCount = 0) then
    Except.error (SchedError.taskFailure s.failedJobCount)
  else Except.ok ()

/-- Per-iteration environment input: the `thread_handler.alive(...)`
count and the messages drained from the queue this iteration. -/
structure TickInput where
  numAliveThreads : Int
  messages : List (Url × Message)

/-- Scan, dispatch and back-off update of one loop iteration — the part
before the drain. -/
def preDrain (env : SchedEnv) (inp : TickInput) (s : SchedState) :
    Except SchedError (SchedState × List Event) :=
  match scanList env env.sortedTaskList s with
  | Except.error e => Except.error e
  | Except.ok (s1, e1) =>
    let r := submitReadyJobs env inp.numAliveThreads s1
    Except.ok (sleepUpdate r.1, e1 ++ r.2)

/-- One iteration of the `while 1:` refresh loop: scan → dispatch →
sleep update → drain → prompt-failure check. -/
def refreshTick (env : SchedEnv) (exitOnFailure : Bool) (inp : TickInput)
    (s : SchedState) : Except SchedError (SchedState × List Event) :=
  match preDrain env inp s with
  | Except.error e => Except.error e
  | Except.ok (s1, e1) =>
    match drainAll env inp.messages s1 with
    | Except.error e => Except.error e
    | Except.ok (s2, e2) =>
      match promptFailureCheck exitOnFailure s2 with
      | Except.error e => Except.error e
      | Except.ok _ => Except.ok (s2, e1 ++ e2)

/-- A finite run of refresh-loop iterations. -/
def refreshRun (env : SchedEnv) (exitOnFailure : Bool) :
    List TickInput → SchedState → Except SchedError (SchedState × List Event)
  | [], s => Except.ok (s, [])
  | inp :: inps, s =>
    match refreshTick env exitOnFailure inp s with
    | Except.error e => Except.error e
    | Except.ok (s1, e1) =>
      match refreshRun env exitOnFailure inps s1 with
      | Except.error e => Except.error e
      | Except.ok (s2, e2) => Except.ok (s2, e1 ++ e2)

/-- Message-trace discipline of the real system: the queue only ever
holds messages sent by a worker of a submitted task, so each delivered
message finds its task with status `"submitted"`, or `started` after
its own start notification. -/
def wfMessages (env : SchedEnv) : SchedState → List (Url × Message) → Bool
  | _, [] => true
  | s, (u, m) :: ms =>
    decide (s.jobStatusMap u = TaskStatus.submitted ∨
            s.jobStatusMap u = TaskStatus.started true) &&
    (match drainOne env s u m with
     | Except.ok (s1, _) => wfMessages env s1 ms
     | Except.error _ => true)

/-- Message-trace discipline over a whole run. -/
def wfRun (env : SchedEnv) (exitOnFailure : Bool) :
    SchedState → List TickInput → Bool
  | _, [] => true
  | s, inp :: inps =>
    (match preDrain env inp s with
     | Except.ok (s1, _) => wfMessages env s1 inp.messages
     | Except.error _ => true) &&
    (match refreshTick env exitOnFailure inp s with
     | Except.ok (s2, _) => wfRun env exitOnFailure s2 inps
     | Except.error _ => true)

/-- Well-formed call snapshot: task URLs in the sorted list are unique
and no task starts in the scheduler-private transient statuses
(`getStatus()` of a `PypeTaskBase` is never `"ready"`/`"submitted"`/a
message string at entry). -/
def EnvWf (env : SchedEnv) : Prop :=
  (env.sortedTaskList.map TaskObj.url).Nodup ∧
  ∀ t ∈ env.sortedTaskList,
    t.status = TaskStatus.initialized ∨ t.status = TaskStatus.done ∨
    t.status = TaskStatus.fail

/-- Terminal task statuses. -/
def TaskStatus.Terminal (st : TaskStatus) : Prop :=
  st = TaskStatus.done ∨ st = TaskStatus.fail

instance (st : TaskStatus) : Decidable st.Terminal := by
  unfold TaskStatus.Terminal; infer_instance

/-- The status a task had when `_refreshTargets` seeded
`jobStatusMap`. -/
def initStatus (env : SchedEnv) (u : Url) : TaskStatus :=
  (initState env).jobStatusMap u

/-! ## `_runCallback` and the post-loop epilogue (controller.py 404-421, 743-751) -/

/-- The shapes of Python values `_runCallback` distinguishes:
`None`, a callable, a `list`, a `dict`, anything else. -/
inductive PyVal where
  | pyNone
  | pyFunction
  | pyList
  | pyDict
  | pyOther
deriving DecidableEq

/-- Python `callable(x)`. -/
def PyVal.callable : PyVal → Bool
  | PyVal.pyFunction => true
  | _ => false

/-- Python `isinstance(x, type(list()))`. -/
def PyVal.isinstanceList : PyVal → Bool
  | PyVal.pyList => true
  | _ => false

/-- Python `isinstance(x, type(dict()))`. -/
def PyVal.isinstanceDict : PyVal → Bool
  | PyVal.pyDict => true
  | _ => false

/-- `PypeWorkflow._runCallback` (controller.py 404-421), faithfully
including the argument-check slip: the second `isinstance` test is
applied to `callback[1]` instead of `callback[2]`. -/
def runCallback (callback : PyVal × PyVal × PyVal) : Except SchedError Unit :=
  if callback.1 ≠ PyVal.pyNone ∧ callback.1.callable = true then
    if callback.2.1 ≠ PyVal.pyNone ∧ callback.2.1.isinstanceList = true then
      if callback.2.2 ≠ PyVal.pyNone ∧ callback.2.1.isinstanceDict = true then
        Except.ok ()
      else Except.error SchedError.callbackTypeError
    else Except.error SchedError.callbackTypeError
  else if callback.1 ≠ PyVal.pyNone then Except.error SchedError.callbackNotCallable
  else Except.ok ()

/-- The code after the refresh loop exits normally (lines 743-751):
`self._runCallback(callback)` is executed first, unconditionally; then,
if `failedJobCount != 0`, `LateTaskFailureError` reporting both counts
is raised, else the call returns `True`. -/
def refreshEpilogue (callback : PyVal × PyVal × PyVal) (s : SchedState) :
    List Event × Except SchedError Bool :=
  ( [Event.runCallback],
    match runCallback callback with
    | Except.error e => Except.error e
    | Except.ok _ =>
        if s.failedJobCount ≠ 0 then
          Except.error (SchedError.lateTaskFailure s.failedJobCount s.succeededJobCount)
        else Except.ok true )

/-! ## The scheduler invariant -/

/-- Run invariant of `_refreshTargets`, relative to the environment and
the accumulated event trace: ready-queue entries are distinct, marked
`"ready"` and have all transitive prereqs `"done"`; a `"submitted"`
status implies all transitive prereqs are `"done"`; tasks that start in
a terminal status are never touched; `finalize()` has run exactly once
for exactly the tasks that reached a terminal status during the call;
and `sleep_time` is one of the finitely many iterates of the IEEE
back-off from 0. -/
structure MasterInv (env : SchedEnv) (s : SchedState) (evs : List Event) : Prop where
  queue_nodup : (s.jobsReadyToBeSubmitted.map TaskObj.url).Nodup
  queue_ok : ∀ t ∈ s.jobsReadyToBeSubmitted,
      s.jobStatusMap t.url = TaskStatus.ready ∧
      ∀ u ∈ env.prereqJobURLMap t.url, s.jobStatusMap u = TaskStatus.done
  submitted_ok : ∀ turl, s.jobStatusMap turl = TaskStatus.submitted →
      ∀ u ∈ env.prereqJobURLMap turl, s.jobStatusMap u = TaskStatus.done
  init_terminal : ∀ u, (initStatus env u).Terminal →
      s.jobStatusMap u = initStatus env u
  finalize_count : ∀ u, evs.count (Event.finalize u) =
      if (s.jobStatusMap u).Terminal ∧ ¬ (initStatus env u).Terminal then 1 else 0
  sleep_bound : SleepReach s.sleepTime

/-! ## Concrete instances used by the closed theorems -/

def exAdjOut : Url → List Url :=
  fun u => if u = "a" then ["b"] else if u = "c" then ["d"] else []

def exAdjIn : Url → List Url :=
  fun u => if u = "b" then ["a"] else if u = "d" then ["c"] else []

/-- Two `PypeGraph`s with the same node set, edge set and adjacency,
differing only in the set-iteration order of `_allNodes`. -/
def exC8g1 : PypeGraph :=
  { allNodes := ["a", "b", "c", "d"], allEdges := [("a", "b"), ("c", "d")],
    outNodes := exAdjOut, inNodes := exAdjIn }

def exC8g2 : PypeGraph :=
  { allNodes := ["c", "d", "a", "b"], allEdges := [("a", "b"), ("c", "d")],
    outNodes := exAdjOut, inNodes := exAdjIn }

/-- A two-node, one-edge acyclic graph. -/
def exChain : PypeGraph :=
  { allNodes := ["a", "b"], allEdges := [("a", "b")],
    outNodes := fun u => if u = "a" then ["b"] else [],
    inNodes := fun u => if u = "b" then ["a"] else [] }

/-- A two-node cycle. -/
def exCyc : PypeGraph :=
  { allNodes := ["a", "b"], allEdges := [("a", "b"), ("b", "a")],
    outNodes := fun u => if u = "a" then ["b"] else if u = "b" then ["a"] else [],
    inNodes := fun u => if u = "a" then ["b"] else if u = "b" then ["a"] else [] }

def exTaskA : TaskObj :=
  { url := "task://a", outputDataObjs := ["file://oa"], mutableDataObjs := [],
    nSlots := 1, isSatisfied := false, status := TaskStatus.initialized }

def exTaskB : TaskObj :=
  { url := "task://b", outputDataObjs := ["file://ob"], mutableDataObjs := [],
    nSlots := 1, isSatisfied := false, status := TaskStatus.initialized }

/-- Two tasks, `task://b` depending on `task://a`. -/
def exEnv : SchedEnv :=
  { sortedTaskList := [exTaskA, exTaskB],
    prereqJobURLMap := fun u => if u = "task://b" then ["task://a"] else [],
    maxNumberTaskSlot := 16, concurrentThreadAllowed := 16 }

/-- A single independent task. -/
def exEnvA : SchedEnv :=
  { sortedTaskList := [exTaskA], prereqJobURLMap := fun _ => [],
    maxNumberTaskSlot := 16, concurrentThreadAllowed := 16 }

/-- Two iterations: the first admits and submits `task://a`, the second
drains its `"done"` message. -/
def exInps : List TickInput :=
  [{ numAliveThreads := 0, messages := [] },
   { numAliveThreads := 1, messages := [("task://a", Message.done)] }]

/-- A scheduler state with one submitted task, mid back-off. -/
def exDrainState : SchedState :=
  { jobStatusMap := fun _ => TaskStatus.submitted, jobsReadyToBeSubmitted := [],
    activeDataObjs := [], mutableDataObjs := [], updatedTaskURLs := [],
    nSubmittedJob := 1, usedTaskSlots := 1, failedJobCount := 0,
    succeededJobCount := 0, sleepTime := 1/2 }

/-- A post-loop state with one failure and two successes. -/
def sFail : SchedState :=
  { jobStatusMap := fun _ => TaskStatus.unknown, jobsReadyToBeSubmitted := [],
    activeDataObjs := [], mutableDataObjs := [], updatedTaskURLs := [],
    nSubmittedJob := 0, usedTaskSlots := 0, failedJobCount := 1,
    succeededJobCount := 2, sleepTime := 0 }

/-- An active-output set of exactly 100 claims, one of which collides
with `exTask100`. -/
def active100 : List (Url × Url) :=
  ("task://other", "file://x") ::
    (List.range 99).map (fun i => ("t" ++ toString i, "d" ++ toString i))

def exTask100 : TaskObj :=
  { url := "task://t", outputDataObjs := ["file://x"], mutableDataObjs := [],
    nSlots := 1, isSatisfied := false, status := TaskStatus.initialized }

def exState100 : SchedState :=
  { jobStatusMap := fun _ => TaskStatus.initialized, jobsReadyToBeSubmitted := [],
    activeDataObjs := active100, mutableDataObjs := [], updatedTaskURLs := [],
    nSubmittedJob := 0, usedTaskSlots := 0, failedJobCount := 0,
    succeededJobCount := 0, sleepTime := 0 }

def exStateSmall : SchedState :=
  { jobStatusMap := fun _ => TaskStatus.initialized, jobsReadyToBeSubmitted := [],
    activeDataObjs := [("task://other", "file://x")], mutableDataObjs := [],
    updatedTaskURLs := [], nSubmittedJob := 0, usedTaskSlots := 0,
    failedJobCount := 0, succeededJobCount := 0, sleepTime := 0 }

def exEnvNoPrereq : SchedEnv :=
  { sortedTaskList := [exTask100], prereqJobURLMap := fun _ => [],
    maxNumberTaskSlot := 16, concurrentThreadAllowed := 16 }

/-- Observes whether a scan result is the hard output-collision error. -/
def isOutputCollisionError : Except SchedError (SchedState × List Event) → Bool
  | Except.error SchedError.outputCollision => true
  | _ => false

instance (env : SchedEnv) : Decidable (EnvWf env) := by
  unfold EnvWf; infer_instance

instance (g : PypeGraph) (u v : Url) : Decidable (g.edgeRel u v) := by
  unfold PypeGraph.edgeRel; infer_instance

/-- An environment with no tasks at all: every scan and dispatch is a
no-op, so quiet iterations only advance the back-off. -/
def exEnvQuiet : SchedEnv :=
  { sortedTaskList := [], prereqJobURLMap := fun _ => [],
    maxNumberTaskSlot := 16, concurrentThreadAllowed := 16 }

/-- Eleven iterations in which the message queue stays empty. -/
def quietInps : List TickInput := List.replicate 11 ⟨1, []⟩

/-! ## Theorems -/

/-! ### Characterisation of one `tSort` loop iteration -/

@[simp] theorem processOutStep_edges (n m : Url) (st : TSortState) :
    (processOutStep n m st).edges = st.edges.erase (n, m) := rfl

@[simp] theorem processOutStep_L (n m : Url) (st : TSortState) :
    (processOutStep n m st).L = st.L := rfl

theorem processOutStep_S (n m : Url) (st : TSortState) :
    (processOutStep n m st).S =
      if ((st.inN m).erase n).isEmpty then m :: st.S else st.S := rfl

theorem processOutStep_outN (n m : Url) (st : TSortState) :
    (processOutStep n m st).outN = fun u => if u = n then (st.outN u).erase m else st.outN u := rfl

theorem processOutStep_inN (n m : Url) (st : TSortState) :
    (processOutStep n m st).inN = fun u => if u = m then (st.inN m).erase n else st.inN u := rfl

theorem processOut_L (n : Url) (ms : List Url) (st : TSortState) :
    (processOut n ms st).L = st.L := by
  induction ms generalizing st with
  | nil => rfl
  | cons m ms ih => simp only [processOut]; rw [ih]; rfl

theorem processOut_outN (n : Url) (ms : List Url) (st : TSortState)
    (heq : st.outN n = ms) :
    (processOut n ms st).outN = fun u => if u = n then [] else st.outN u := by
  induction ms generalizing st with
  | nil =>
      funext u
      by_cases h : u = n
      · subst h; simpa [processOut] using heq
      · simp [processOut, h]
  | cons m tl ih =>
      simp only [processOut]
      rw [ih (processOutStep n m st) (by simp [processOutStep_outN, heq])]
      funext u
      by_cases h : u = n <;> simp [h, processOutStep_outN]

theorem processOut_inN (n : Url) (ms : List Url) (st : TSortState)
    (hnd : ms.Nodup) :
    (processOut n ms st).inN = fun u => if u ∈ ms then (st.inN u).erase n else st.inN u := by
  induction ms generalizing st with
  | nil => funext u; simp [processOut]
  | cons m tl ih =>
      have hm : m ∉ tl := (List.nodup_cons.mp hnd).1
      simp only [processOut]
      rw [ih (processOutStep n m st) (List.nodup_cons.mp hnd).2]
      funext u
      by_cases htl : u ∈ tl
      · have hum : u ≠ m := fun h => hm (h ▸ htl)
        simp [htl, hum, List.mem_cons, processOutStep_inN]
      · by_cases hum : u = m
        · subst hum; simp [htl, processOutStep_inN]
        · simp [htl, hum, processOutStep_inN]

theorem processOut_edges (n : Url) (ms : List Url) (st : TSortState)
    (hnd : ms.Nodup) (hed : st.edges.Nodup) (hin : ∀ m ∈ ms, (n, m) ∈ st.edges) :
    (processOut n ms st).edges.Nodup ∧
    (processOut n ms st).edges.length + ms.length = st.edges.length ∧
    (∀ e, e ∈ (processOut n ms st).edges ↔ e ∈ st.edges ∧ ¬(e.1 = n ∧ e.2 ∈ ms)) := by
  induction ms generalizing st with
  | nil => exact ⟨hed, by simp [processOut], by simp [processOut]⟩
  | cons m tl ih =>
      have hm : m ∉ tl := (List.nodup_cons.mp hnd).1
      have hmem : (n, m) ∈ st.edges := hin m (List.mem_cons_self m tl)
      have hed' : (processOutStep n m st).edges.Nodup :=
        (List.erase_sublist (n, m) st.edges).nodup hed
      have hin' : ∀ m' ∈ tl, (n, m') ∈ (processOutStep n m st).edges := by
        intro m' hm'
        have hmm : m' ≠ m := fun h => hm (h ▸ hm')
        have hne : (n, m') ≠ (n, m) := by
          intro h
          exact hmm (congrArg Prod.snd h)
        rw [processOutStep_edges]
        exact (List.mem_erase_of_ne hne).mpr (hin m' (List.mem_cons_of_mem m hm'))
      obtain ⟨h1, h2, h3⟩ := ih (processOutStep n m st) (List.nodup_cons.mp hnd).2 hed' hin'
      simp only [processOut]
      refine ⟨h1, ?_, ?_⟩
      · have hlen : (processOutStep n m st).edges.length = st.edges.length - 1 := by
          rw [processOutStep_edges, List.length_erase]; simp [hmem]
        have hpos : 0 < st.edges.length := List.length_pos.mpr
          (fun h => by rw [h] at hmem; exact absurd hmem (List.not_mem_nil _))
        simp only [List.length_cons]
        omega
      · intro e
        rw [h3 e, processOutStep_edges, hed.mem_erase_iff]
        constructor
        · rintro ⟨⟨hne, he⟩, hno⟩
          refine ⟨he, ?_⟩
          rintro ⟨h1e, h2e⟩
          rcases List.mem_cons.mp h2e with h | h
          · refine hne ?_
            obtain ⟨e1, e2⟩ := e
            simp only at h1e h
            rw [h1e, h]
          · exact hno ⟨h1e, h⟩
        · rintro ⟨he, hno⟩
          refine ⟨⟨?_, he⟩, ?_⟩
          · intro h
            refine hno ?_
            rw [h]
            exact ⟨rfl, List.mem_cons_self m tl⟩
          · rintro ⟨h1e, h2e⟩
            exact hno ⟨h1e, List.mem_cons_of_mem m h2e⟩

theorem processOut_S (n : Url) (ms : List Url) (st : TSortState)
    (hnd : ms.Nodup) (hSnd : st.S.Nodup) (hdisj : ∀ m ∈ ms, m ∉ st.S) :
    (processOut n ms st).S.Nodup ∧
    (processOut n ms st).S.length ≤ st.S.length + ms.length ∧
    (∀ u, u ∈ (processOut n ms st).S ↔
        u ∈ st.S ∨ (u ∈ ms ∧ (st.inN u).erase n = [])) := by
  induction ms generalizing st with
  | nil => exact ⟨hSnd, by simp [processOut], by simp [processOut]⟩
  | cons m tl ih =>
      have hm : m ∉ tl := (List.nodup_cons.mp hnd).1
      have hmS : m ∉ st.S := hdisj m (List.mem_cons_self m tl)
      have hSnd' : (processOutStep n m st).S.Nodup := by
        rw [processOutStep_S]
        by_cases hc : ((st.inN m).erase n).isEmpty
        · rw [if_pos hc]; exact List.nodup_cons.mpr ⟨hmS, hSnd⟩
        · rw [if_neg hc]; exact hSnd
      have hstepS : ∀ u, u ∈ (processOutStep n m st).S ↔
          u ∈ st.S ∨ (u = m ∧ (st.inN m).erase n = []) := by
        intro u
        rw [processOutStep_S]
        by_cases hc : ((st.inN m).erase n).isEmpty
        · have he : (st.inN m).erase n = [] := List.isEmpty_iff.mp hc
          rw [if_pos hc]
          simp only [List.mem_cons, he, and_true]
          tauto
        · have he : ¬ (st.inN m).erase n = [] := fun h => hc (by rw [h]; rfl)
          rw [if_neg hc]
          constructor
          · exact Or.inl
          · rintro (h | ⟨_, hco⟩)
            · exact h
            · exact absurd hco he
      have hdisj' : ∀ m' ∈ tl, m' ∉ (processOutStep n m st).S := by
        intro m' hm' hmem
        rcases (hstepS m').mp hmem with h | ⟨h, _⟩
        · exact hdisj m' (List.mem_cons_of_mem m hm') h
        · exact hm (h ▸ hm')
      obtain ⟨h1, h2, h3⟩ := ih (processOutStep n m st) (List.nodup_cons.mp hnd).2 hSnd' hdisj'
      have hstep_inN : ∀ u, u ≠ m → (processOutStep n m st).inN u = st.inN u := by
        intro u hne
        rw [processOutStep_inN]
        simp [hne]
      have hSlen : (processOutStep n m st).S.length ≤ st.S.length + 1 := by
        rw [processOutStep_S]
        by_cases hc : ((st.inN m).erase n).isEmpty
        · rw [if_pos hc]; simp
        · rw [if_neg hc]; omega
      simp only [processOut]
      refine ⟨h1, ?_, ?_⟩
      · calc (processOut n tl (processOutStep n m st)).S.length
            ≤ (processOutStep n m st).S.length + tl.length := h2
          _ ≤ st.S.length + 1 + tl.length := by omega
          _ = st.S.length + (m :: tl).length := by simp [List.length_cons]; omega
      · intro u
        rw [h3 u]
        constructor
        · rintro (h | ⟨hutl, hue⟩)
          · rcases (hstepS u).mp h with h' | ⟨hum, hemp⟩
            · exact Or.inl h'
            · subst hum
              exact Or.inr ⟨List.mem_cons_self u tl, hemp⟩
          · have hum : u ≠ m := fun h' => hm (h' ▸ hutl)
            rw [hstep_inN u hum] at hue
            exact Or.inr ⟨List.mem_cons_of_mem m hutl, hue⟩
        · rintro (h | ⟨humtl, hue⟩)
          · exact Or.inl ((hstepS u).mpr (Or.inl h))
          · rcases List.mem_cons.mp humtl with h' | h'
            · subst h'
              exact Or.inl ((hstepS u).mpr (Or.inr ⟨rfl, hue⟩))
            · have hum : u ≠ m := fun he => hm (he ▸ h')
              refine Or.inr ⟨h', ?_⟩
              rw [hstep_inN u hum]
              exact hue

theorem kahnInv_iter {g : PypeGraph} (hg : g.Coherent) {st : TSortState} {n : Url}
    {rest : List Url} (hInv : KahnInv g st) (hS : st.S = n :: rest) :
    KahnInv g (tSortIter st n rest) ∧
    (tSortIter st n rest).edges.length + (tSortIter st n rest).S.length + 1 ≤
      st.edges.length + st.S.length := by
  obtain ⟨hEnd, hLnd, hSnd, hLsub, hSsub, hdisj, hcover, hedges, houtN, hinNnd, hinN, hSin, htopo⟩ :=
    hInv
  obtain ⟨hEnodup, hNnodup, hEdgeNodes, hAdj⟩ := hg
  have hnS : n ∈ st.S := by rw [hS]; exact List.mem_cons_self n rest
  have hnNodes : n ∈ g.allNodes := hSsub n hnS
  have hnL : n ∉ st.L := hdisj n hnS
  have hms : st.outN n = g.outNodes n := by rw [houtN n, if_neg hnL]
  obtain ⟨houtnd, hinndn, houtEdge, hinEdge⟩ := hAdj n hnNodes
  have hnInN : st.inN n = [] := hSin n hnS
  have hnotself : n ∉ g.outNodes n := by
    intro h
    have h2 : n ∈ g.inNodes n := (hEdgeNodes _ (houtEdge n h)).2.2.2
    have h3 : n ∈ st.inN n := (hinN n hnNodes n).mpr ⟨h2, hnL⟩
    rw [hnInN] at h3
    exact absurd h3 (List.not_mem_nil n)
  have hmsNodes : ∀ m ∈ g.outNodes n, m ∈ g.allNodes :=
    fun m hm => (hEdgeNodes _ (houtEdge m hm)).2.1
  have hmsL : ∀ m ∈ g.outNodes n, m ∉ st.L := by
    intro m hm hmL
    exact hnL ((htopo (n, m) (houtEdge m hm) hmL).subset (List.mem_cons_self _ _))
  have hmsInN : ∀ m ∈ g.outNodes n, n ∈ st.inN m := by
    intro m hm
    exact (hinN m (hmsNodes m hm) n).mpr ⟨(hEdgeNodes _ (houtEdge m hm)).2.2.2, hnL⟩
  have hmsS : ∀ m ∈ g.outNodes n, m ∉ st.S := by
    intro m hm hmS2
    have h1 := hmsInN m hm
    rw [hSin m hmS2] at h1
    exact absurd h1 (List.not_mem_nil n)
  have hmsRest : ∀ m ∈ g.outNodes n, m ∉ rest := by
    intro m hm hmrest
    exact hmsS m hm (by rw [hS]; exact List.mem_cons_of_mem n hmrest)
  have hrestnd : rest.Nodup := by
    rw [hS] at hSnd; exact (List.nodup_cons.mp hSnd).2
  have hnrest : n ∉ rest := by
    rw [hS] at hSnd; exact (List.nodup_cons.mp hSnd).1
  have hmsEdges : ∀ m ∈ g.outNodes n, (n, m) ∈ st.edges := by
    intro m hm
    exact (hedges (n, m)).mpr ⟨houtEdge m hm, hnL⟩
  have hiter : tSortIter st n rest =
      processOut n (g.outNodes n) ⟨st.edges, rest, st.L ++ [n], st.outN, st.inN⟩ := by
    simp only [tSortIter, hms]
  have hLF : (processOut n (g.outNodes n) ⟨st.edges, rest, st.L ++ [n], st.outN, st.inN⟩).L
      = st.L ++ [n] :=
    processOut_L n (g.outNodes n) ⟨st.edges, rest, st.L ++ [n], st.outN, st.inN⟩
  have houtF := processOut_outN n (g.outNodes n)
    ⟨st.edges, rest, st.L ++ [n], st.outN, st.inN⟩ hms
  have hinF := processOut_inN n (g.outNodes n)
    ⟨st.edges, rest, st.L ++ [n], st.outN, st.inN⟩ houtnd
  have houtFu : ∀ u,
      (processOut n (g.outNodes n) ⟨st.edges, rest, st.L ++ [n], st.outN, st.inN⟩).outN u
        = if u = n then [] else st.outN u := by
    intro u; rw [houtF]
  have hinFu : ∀ u,
      (processOut n (g.outNodes n) ⟨st.edges, rest, st.L ++ [n], st.outN, st.inN⟩).inN u
        = if u ∈ g.outNodes n then (st.inN u).erase n else st.inN u := by
    intro u; rw [hinF]
  obtain ⟨hednF, hedlenF, hedmemF⟩ :=
    processOut_edges n (g.outNodes n) ⟨st.edges, rest, st.L ++ [n], st.outN, st.inN⟩
      houtnd hEnd hmsEdges
  obtain ⟨hSndF, hSlenF, hSmemF⟩ :=
    processOut_S n (g.outNodes n) ⟨st.edges, rest, st.L ++ [n], st.outN, st.inN⟩
      houtnd hrestnd hmsRest
  have hSmemF' : ∀ u,
      u ∈ (processOut n (g.outNodes n) ⟨st.edges, rest, st.L ++ [n], st.outN, st.inN⟩).S ↔
        u ∈ rest ∨ (u ∈ g.outNodes n ∧ (st.inN u).erase n = []) := hSmemF
  have hedmemF' : ∀ e,
      e ∈ (processOut n (g.outNodes n) ⟨st.edges, rest, st.L ++ [n], st.outN, st.inN⟩).edges ↔
        e ∈ st.edges ∧ ¬(e.1 = n ∧ e.2 ∈ g.outNodes n) := hedmemF
  rw [hiter]
  have hmemL : ∀ u, u ∈ st.L ++ [n] ↔ u ∈ st.L ∨ u = n := by
    intro u; simp [List.mem_append]
  constructor
  · refine ⟨hednF, ?_, hSndF, ?_, ?_, ?_, ?_, ?_, ?_, ?_, ?_, ?_, ?_⟩
    · -- L_nodup
      rw [hLF]
      exact hLnd.append (List.nodup_singleton n)
        (fun x hx hx' => hnL ((List.mem_singleton.mp hx') ▸ hx))
    · -- L_sub
      intro u hu
      rw [hLF] at hu
      rcases (hmemL u).mp hu with h | h
      · exact hLsub u h
      · exact h ▸ hnNodes
    · -- S_sub
      intro u hu
      rcases (hSmemF' u).mp hu with h | ⟨h, _⟩
      · exact hSsub u (by rw [hS]; exact List.mem_cons_of_mem n h)
      · exact hmsNodes u h
    · -- disj
      intro u hu huL
      rw [hLF] at huL
      rcases (hmemL u).mp huL with h | h
      · rcases (hSmemF' u).mp hu with h2 | ⟨h2, _⟩
        · exact hdisj u (by rw [hS]; exact List.mem_cons_of_mem n h2) h
        · exact hmsL u h2 h
      · subst h
        rcases (hSmemF' u).mp hu with h2 | ⟨h2, _⟩
        · exact hnrest h2
        · exact hnotself h2
    · -- cover
      intro u hu
      rcases hcover u hu with h | h | h
      · exact Or.inl (by rw [hLF]; exact (hmemL u).mpr (Or.inl h))
      · rw [hS] at h
        rcases List.mem_cons.mp h with h2 | h2
        · exact Or.inl (by rw [hLF]; exact (hmemL u).mpr (Or.inr h2))
        · exact Or.inr (Or.inl ((hSmemF' u).mpr (Or.inl h2)))
      · by_cases hums : u ∈ g.outNodes n
        · by_cases hemp : (st.inN u).erase n = []
          · exact Or.inr (Or.inl ((hSmemF' u).mpr (Or.inr ⟨hums, hemp⟩)))
          · refine Or.inr (Or.inr ?_)
            rw [hinFu u, if_pos hums]
            exact hemp
        · refine Or.inr (Or.inr ?_)
          rw [hinFu u, if_neg hums]
          exact h
    · -- edges_mem
      intro e
      rw [hedmemF' e]
      constructor
      · rintro ⟨he, hno⟩
        obtain ⟨ho, hl⟩ := (hedges e).mp he
        refine ⟨ho, ?_⟩
        rw [hLF]
        intro hmem
        rcases (hmemL e.1).mp hmem with h | h
        · exact hl h
        · refine hno ⟨h, ?_⟩
          have h3 := (hEdgeNodes e ho).2.2.1
          rw [h] at h3
          exact h3
      · rintro ⟨ho, hl⟩
        rw [hLF] at hl
        have h1 : e.1 ∉ st.L := fun h => hl ((hmemL e.1).mpr (Or.inl h))
        have h2 : e.1 ≠ n := fun h => hl ((hmemL e.1).mpr (Or.inr h))
        exact ⟨(hedges e).mpr ⟨ho, h1⟩, fun hc => h2 hc.1⟩
    · -- outN_eq
      intro u
      rw [houtFu u, hLF]
      by_cases h : u = n
      · subst h
        rw [if_pos rfl, if_pos ((hmemL u).mpr (Or.inr rfl))]
      · have hiff : (u ∈ st.L ++ [n]) ↔ (u ∈ st.L) := by
          rw [hmemL u]; simp [h]
        rw [if_neg h, houtN u]
        by_cases h2 : u ∈ st.L
        · rw [if_pos h2, if_pos (hiff.mpr h2)]
        · rw [if_neg h2, if_neg (fun hh => h2 (hiff.mp hh))]
    · -- inN_nodup
      intro u hu
      rw [hinFu u]
      by_cases h : u ∈ g.outNodes n
      · rw [if_pos h]
        exact (List.erase_sublist n (st.inN u)).nodup (hinNnd u hu)
      · rw [if_neg h]
        exact hinNnd u hu
    · -- inN_mem
      intro u hu v
      rw [hinFu u, hLF]
      have hvL : v ∈ st.L ++ [n] ↔ v ∈ st.L ∨ v = n := hmemL v
      by_cases h : u ∈ g.outNodes n
      · rw [if_pos h, (hinNnd u hu).mem_erase_iff, hinN u hu v]
        constructor
        · rintro ⟨hne, hin, hnl⟩
          refine ⟨hin, fun hm => ?_⟩
          rcases hvL.mp hm with h2 | h2
          · exact hnl h2
          · exact hne h2
        · rintro ⟨hin, hnl⟩
          exact ⟨fun he => hnl (hvL.mpr (Or.inr he)),
            hin, fun he => hnl (hvL.mpr (Or.inl he))⟩
      · rw [if_neg h, hinN u hu v]
        constructor
        · rintro ⟨hin, hnl⟩
          refine ⟨hin, fun hm => ?_⟩
          rcases hvL.mp hm with h2 | h2
          · exact hnl h2
          · subst h2
            have h3 : (v, u) ∈ g.allEdges := (hAdj u hu).2.2.2 v hin
            exact h ((hEdgeNodes (v, u) h3).2.2.1)
        · rintro ⟨hin, hnl⟩
          exact ⟨hin, fun he => hnl (hvL.mpr (Or.inl he))⟩
    · -- S_inN
      intro u hu
      rw [hinFu u]
      rcases (hSmemF' u).mp hu with h | ⟨h, hemp⟩
      · have hums : u ∉ g.outNodes n := fun h2 => hmsRest u h2 h
        rw [if_neg hums]
        exact hSin u (by rw [hS]; exact List.mem_cons_of_mem n h)
      · rw [if_pos h]
        exact hemp
    · -- topo
      intro e ho hmem
      rw [hLF] at hmem ⊢
      rcases (hmemL e.2).mp hmem with h | h
      · exact (htopo e ho h).trans (List.sublist_append_left st.L [n])
      · have h1 : e.1 ∈ g.inNodes n := by
          have h3 := (hEdgeNodes e ho).2.2.2
          rw [h] at h3
          exact h3
        have h2 : e.1 ∈ st.L := by
          by_contra h3
          have h4 : e.1 ∈ st.inN n := (hinN n hnNodes e.1).mpr ⟨h1, h3⟩
          rw [hnInN] at h4
          exact absurd h4 (List.not_mem_nil _)
        have h5 : [e.1].Sublist st.L := List.singleton_sublist.mpr h2
        rw [show [e.1, e.2] = [e.1] ++ [e.2] from rfl, h]
        exact h5.append (List.Sublist.refl [n])
  · -- measure
    have h1 : (processOut n (g.outNodes n)
        ⟨st.edges, rest, st.L ++ [n], st.outN, st.inN⟩).edges.length
        + (g.outNodes n).length = st.edges.length := hedlenF
    have h2 : (processOut n (g.outNodes n)
        ⟨st.edges, rest, st.L ++ [n], st.outN, st.inN⟩).S.length
        ≤ rest.length + (g.outNodes n).length := hSlenF
    have hSlen2 : st.S.length = rest.length + 1 := by rw [hS]; simp
    omega

theorem tSortGo_nil {fuel : Nat} {st : TSortState} (h : st.S = []) :
    tSortGo fuel st = some st := by
  rw [tSortGo, h]

theorem tSortGo_cons {f : Nat} {st : TSortState} {n : Url} {rest : List Url}
    (h : st.S = n :: rest) :
    tSortGo (f + 1) st = tSortGo f (tSortIter st n rest) := by
  rw [tSortGo, h]

theorem kahnInv_init {g : PypeGraph} (hg : g.Coherent) : KahnInv g (tSortInit g) := by
  obtain ⟨hEnodup, hNnodup, hEdgeNodes, hAdj⟩ := hg
  have hSmem : ∀ u, u ∈ (tSortInit g).S ↔ u ∈ g.allNodes ∧ g.inDegree u = 0 := by
    intro u
    simp [tSortInit, List.mem_reverse, List.mem_filter]
  refine ⟨hEnodup, List.nodup_nil, ?_, ?_, ?_, ?_, ?_, ?_, ?_, ?_, ?_, ?_, ?_⟩
  · -- S_nodup
    simp only [tSortInit, List.nodup_reverse]
    exact hNnodup.filter _
  · -- L_sub
    intro u hu
    exact absurd hu (List.not_mem_nil u)
  · -- S_sub
    intro u hu
    exact ((hSmem u).mp hu).1
  · -- disj
    intro u _ hc
    exact absurd hc (List.not_mem_nil u)
  · -- cover
    intro u hu
    by_cases h : (tSortInit g).inN u = []
    · refine Or.inr (Or.inl ((hSmem u).mpr ⟨hu, ?_⟩))
      simp only [PypeGraph.inDegree]
      have h2 : g.inNodes u = [] := h
      rw [h2]
      rfl
    · exact Or.inr (Or.inr h)
  · -- edges_mem
    intro e
    simp [tSortInit]
  · -- outN_eq
    intro u
    simp [tSortInit]
  · -- inN_nodup
    intro u hu
    exact (hAdj u hu).2.1
  · -- inN_mem
    intro u _ v
    simp [tSortInit]
  · -- S_inN
    intro u hu
    have h2 : g.inDegree u = 0 := ((hSmem u).mp hu).2
    simp only [PypeGraph.inDegree] at h2
    exact List.length_eq_zero.mp h2
  · -- topo
    intro e _ hc
    exact absurd hc (List.not_mem_nil _)

theorem tSortGo_some {g : PypeGraph} (hg : g.Coherent) :
    ∀ (fuel : Nat) (st : TSortState), KahnInv g st →
      st.edges.length + st.S.length < fuel →
      ∃ st2, tSortGo fuel st = some st2 ∧ KahnInv g st2 ∧ st2.S = [] := by
  intro fuel
  induction fuel with
  | zero => intro st _ h; omega
  | succ f ih =>
      intro st hInv hlt
      cases hS : st.S with
      | nil => exact ⟨st, tSortGo_nil hS, hInv, hS⟩
      | cons n rest =>
          obtain ⟨hInv2, hm⟩ := kahnInv_iter hg hInv hS
          have hlen : st.S.length = rest.length + 1 := by rw [hS]; simp
          have hlt2 : (tSortIter st n rest).edges.length + (tSortIter st n rest).S.length < f := by
            omega
          obtain ⟨st2, hgo, hInv3, hS3⟩ := ih (tSortIter st n rest) hInv2 hlt2
          exact ⟨st2, by rw [tSortGo_cons hS]; exact hgo, hInv3, hS3⟩

theorem tSort_run {g : PypeGraph} (hg : g.Coherent) :
    ∃ st2, tSortGo (g.allNodes.length + g.allEdges.length + 1) (tSortInit g) = some st2 ∧
      KahnInv g st2 ∧ st2.S = [] := by
  apply tSortGo_some hg
  · exact kahnInv_init hg
  · have h1 : (tSortInit g).edges.length = g.allEdges.length := rfl
    have h2 : (tSortInit g).S.length ≤ g.allNodes.length := by
      simp only [tSortInit, List.length_reverse]
      exact List.length_filter_le _ _
    omega

/-- In a finite node set in which every member has an in-neighbour
inside the set, some node lies on a directed cycle. -/
theorem exists_cycle_of_pred (g : PypeGraph) (R : List Url) (hne : R ≠ [])
    (hpred : ∀ r ∈ R, ∃ v ∈ R, (v, r) ∈ g.allEdges) :
    ∃ u, Relation.TransGen g.edgeRel u u := by
  by_contra hno
  push_neg at hno
  haveI : Fintype {u // u ∈ R.toFinset} := FinsetCoe.fintype R.toFinset
  let r' : {u // u ∈ R.toFinset} → {u // u ∈ R.toFinset} → Prop :=
    fun a b => Relation.TransGen g.edgeRel a.1 b.1
  haveI hTrans : IsTrans {u // u ∈ R.toFinset} r' := ⟨fun _ _ _ h1 h2 => h1.trans h2⟩
  haveI hIrr : IsIrrefl {u // u ∈ R.toFinset} r' := ⟨fun a h => hno a.1 h⟩
  have hwf : WellFounded r' := Finite.wellFounded_of_trans_of_irrefl r'
  obtain ⟨r0, hr0⟩ := List.exists_mem_of_ne_nil R hne
  obtain ⟨m, -, hmin⟩ :=
    hwf.has_min Set.univ ⟨⟨r0, List.mem_toFinset.mpr hr0⟩, Set.mem_univ _⟩
  obtain ⟨v, hvR, hvr⟩ := hpred m.1 (List.mem_toFinset.mp m.2)
  exact hmin ⟨v, List.mem_toFinset.mpr hvR⟩ (Set.mem_univ _) (Relation.TransGen.single hvr)

/-- In a duplicate-free list, a two-element sublist orders the indices. -/
theorem indexOf_lt_of_pair_sublist {L : List Url} {u v : Url}
    (hnd : L.Nodup) (h : [u, v].Sublist L) : L.indexOf u < L.indexOf v := by
  induction L with
  | nil => simp at h
  | cons a tl ih =>
      cases h with
      | cons a2 h' =>
          have htl := (List.nodup_cons.mp hnd).2
          have ha := (List.nodup_cons.mp hnd).1
          have hu : u ∈ tl := h'.subset (by simp)
          have hv : v ∈ tl := h'.subset (by simp)
          have hau : (a == u) = false := beq_eq_false_iff_ne.mpr (fun he => ha (by rw [he]; exact hu))
          have hav : (a == v) = false := beq_eq_false_iff_ne.mpr (fun he => ha (by rw [he]; exact hv))
          rw [List.indexOf_cons, List.indexOf_cons, hau, hav]
          simpa using Nat.succ_lt_succ (ih htl h')
      | cons₂ a2 h' =>
          have ha := (List.nodup_cons.mp hnd).1
          have hv : v ∈ tl := h'.subset (by simp)
          have huv : (u == v) = false := beq_eq_false_iff_ne.mpr (fun he => ha (by rw [he]; exact hv))
          rw [List.indexOf_cons, List.indexOf_cons, huv, BEq.refl]
          simp

theorem tSortGo_empty_adj :
    ∀ (fuel : Nat) (st : TSortState),
      (∀ u ∈ st.S, st.outN u = []) → st.S.length ≤ fuel →
      tSortGo fuel st =
        some ⟨st.edges, [], st.L ++ st.S, st.outN, st.inN⟩ := by
  intro fuel
  induction fuel with
  | zero =>
      intro st h hlen
      obtain ⟨se, sS, sL, so, si⟩ := st
      have hnil : sS = [] := List.length_eq_zero.mp (Nat.le_zero.mp hlen)
      subst hnil
      rw [tSortGo_nil rfl]
      simp
  | succ f ih =>
      intro st h hlen
      obtain ⟨se, sS, sL, so, si⟩ := st
      cases sS with
      | nil =>
          rw [tSortGo_nil rfl]
          simp
      | cons n rest =>
          have hon : so n = [] := h n (List.mem_cons_self n rest)
          rw [tSortGo_cons rfl]
          have hiter : tSortIter ⟨se, n :: rest, sL, so, si⟩ n rest
              = ⟨se, rest, sL ++ [n], so, si⟩ := by
            show processOut n (so n) ⟨se, rest, sL ++ [n], so, si⟩ = _
            rw [hon]
            rfl
          rw [hiter]
          have hlen2 : rest.length ≤ f := by
            simp only [List.length_cons] at hlen
            omega
          have hrec := ih ⟨se, rest, sL ++ [n], so, si⟩
            (fun u hu => h u (List.mem_cons_of_mem n hu)) hlen2
          rw [hrec]
          simp

theorem tSort_final {g : PypeGraph} (hg : g.Coherent) :
    ∃ st2, g.tSort =
        (if st2.edges.isEmpty then Except.ok st2.L
         else Except.error TSortError.circleDetected,
         { g with outNodes := st2.outN, inNodes := st2.inN }) ∧
      KahnInv g st2 ∧ st2.S = [] := by
  obtain ⟨st2, hgo, hInv, hS⟩ := tSort_run hg
  refine ⟨st2, ?_, hInv, hS⟩
  rw [PypeGraph.tSort, hgo]

theorem tSort_success_core {g : PypeGraph} (hg : g.Coherent) {st2 : TSortState}
    (hInv : KahnInv g st2) (hS : st2.S = []) (hemp : st2.edges = []) :
    (∀ u ∈ g.allNodes, u ∈ st2.L) ∧ st2.L.Perm g.allNodes ∧
    (∀ e ∈ g.allEdges, st2.L.indexOf e.1 < st2.L.indexOf e.2) ∧ g.Acyclic := by
  obtain ⟨hEnodup, hNnodup, hEdgeNodes, hAdj⟩ := hg
  have hsub : ∀ u ∈ g.allNodes, u ∈ st2.L := by
    intro u hu
    rcases hInv.cover u hu with h | h | h
    · exact h
    · rw [hS] at h; exact absurd h (List.not_mem_nil u)
    · exfalso
      obtain ⟨v, hv⟩ := List.exists_mem_of_ne_nil _ h
      obtain ⟨hvin, hvL⟩ := (hInv.inN_mem u hu v).mp hv
      have hvu : (v, u) ∈ g.allEdges := (hAdj u hu).2.2.2 v hvin
      have : (v, u) ∈ st2.edges := (hInv.edges_mem (v, u)).mpr ⟨hvu, hvL⟩
      rw [hemp] at this
      exact absurd this (List.not_mem_nil _)
  have hperm : st2.L.Perm g.allNodes := by
    rw [List.perm_ext_iff_of_nodup hInv.L_nodup hNnodup]
    intro a
    exact ⟨fun h => hInv.L_sub a h, fun h => hsub a h⟩
  have htopo : ∀ e ∈ g.allEdges, st2.L.indexOf e.1 < st2.L.indexOf e.2 := by
    intro e he
    have h2 : e.2 ∈ st2.L := hsub e.2 (hEdgeNodes e he).2.1
    exact indexOf_lt_of_pair_sublist hInv.L_nodup (hInv.topo e he h2)
  refine ⟨hsub, hperm, htopo, ?_⟩
  intro u hcyc
  have hmono : ∀ a b, Relation.TransGen g.edgeRel a b →
      st2.L.indexOf a < st2.L.indexOf b := by
    intro a b hab
    induction hab with
    | single hr => exact htopo _ hr
    | tail _ hr ih => exact ih.trans (htopo _ hr)
  exact absurd (hmono u u hcyc) (lt_irrefl _)

theorem tSort_failure_core {g : PypeGraph} (hg : g.Coherent) {st2 : TSortState}
    (hInv : KahnInv g st2) (hS : st2.S = []) (hne : st2.edges ≠ []) :
    ¬ g.Acyclic := by
  obtain ⟨hEnodup, hNnodup, hEdgeNodes, hAdj⟩ := hg
  have hRmem : ∀ u, u ∈ g.allNodes.filter (fun u => u ∉ st2.L) ↔
      u ∈ g.allNodes ∧ u ∉ st2.L := by
    intro u; simp [List.mem_filter]
  obtain ⟨e0, he0⟩ := List.exists_mem_of_ne_nil _ hne
  obtain ⟨he0o, he0L⟩ := (hInv.edges_mem e0).mp he0
  have hRne : g.allNodes.filter (fun u => u ∉ st2.L) ≠ [] := by
    intro hcon
    have : e0.1 ∈ g.allNodes.filter (fun u => u ∉ st2.L) :=
      (hRmem e0.1).mpr ⟨(hEdgeNodes e0 he0o).1, he0L⟩
    rw [hcon] at this
    exact absurd this (List.not_mem_nil _)
  have hpred : ∀ r ∈ g.allNodes.filter (fun u => u ∉ st2.L),
      ∃ v ∈ g.allNodes.filter (fun u => u ∉ st2.L), (v, r) ∈ g.allEdges := by
    intro r hr
    obtain ⟨hrN, hrL⟩ := (hRmem r).mp hr
    rcases hInv.cover r hrN with h | h | h
    · exact absurd h hrL
    · rw [hS] at h; exact absurd h (List.not_mem_nil r)
    · obtain ⟨v, hv⟩ := List.exists_mem_of_ne_nil _ h
      obtain ⟨hvin, hvL⟩ := (hInv.inN_mem r hrN v).mp hv
      have hvr : (v, r) ∈ g.allEdges := (hAdj r hrN).2.2.2 v hvin
      exact ⟨v, (hRmem v).mpr ⟨(hEdgeNodes _ hvr).1, hvL⟩, hvr⟩
  obtain ⟨u, hu⟩ := exists_cycle_of_pred g _ hRne hpred
  intro hAc
  exact hAc u hu

theorem tSort_fst_of_go {g : PypeGraph} {st : TSortState}
    (h : tSortGo (g.allNodes.length + g.allEdges.length + 1) (tSortInit g) = some st) :
    (g.tSort).1 =
      (if st.edges.isEmpty then Except.ok st.L
       else Except.error TSortError.circleDetected) := by
  rw [PypeGraph.tSort, h]

theorem tSort_destructive_core {g : PypeGraph} (hg : g.Coherent) {L : List Url}
    (hok : (g.tSort).1 = Except.ok L) :
    (g.tSort).2.allNodes = g.allNodes ∧
    (g.tSort).2.allEdges = g.allEdges ∧
    (∀ u ∈ g.allNodes, (g.tSort).2.outNodes u = [] ∧ (g.tSort).2.inNodes u = []) := by
  obtain ⟨st2, htsort, hInv, hS⟩ := tSort_final hg
  have hsnd : (g.tSort).2 = { g with outNodes := st2.outN, inNodes := st2.inN } := by
    rw [htsort]
  have hfst : (g.tSort).1 =
      (if st2.edges.isEmpty then Except.ok st2.L
       else Except.error TSortError.circleDetected) := by rw [htsort]
  have hempl : st2.edges = [] := by
    by_contra hne
    have hc : ¬ st2.edges.isEmpty = true := by
      rw [List.isEmpty_iff]; exact hne
    rw [hfst, if_neg hc] at hok
    cases hok
  obtain ⟨hsub, -, -, -⟩ := tSort_success_core hg hInv hS hempl
  obtain ⟨hEnodup, hNnodup, hEdgeNodes, hAdj⟩ := hg
  refine ⟨by rw [hsnd], by rw [hsnd], ?_⟩
  intro u hu
  rw [hsnd]
  constructor
  · show st2.outN u = []
    rw [hInv.outN_eq u, if_pos (hsub u hu)]
  · show st2.inN u = []
    rw [List.eq_nil_iff_forall_not_mem]
    intro v hv
    obtain ⟨hvin, hvL⟩ := (hInv.inN_mem u hu v).mp hv
    have hvu : (v, u) ∈ g.allEdges := (hAdj u hu).2.2.2 v hvin
    exact hvL (hsub v (hEdgeNodes _ hvu).1)

theorem tSort_second_call {g2 : PypeGraph}
    (hempty : ∀ u ∈ g2.allNodes, g2.outNodes u = [] ∧ g2.inNodes u = [])
    (hne : g2.allEdges ≠ []) :
    (g2.tSort).1 = Except.error TSortError.circleDetected := by
  have h1 : ∀ u ∈ (tSortInit g2).S, (tSortInit g2).outN u = [] := by
    intro u hu
    have hu2 : u ∈ g2.allNodes := by
      have := List.mem_reverse.mp hu
      exact (List.mem_filter.mp this).1
    exact (hempty u hu2).1
  have h2 : (tSortInit g2).S.length ≤ g2.allNodes.length + g2.allEdges.length + 1 := by
    have : (tSortInit g2).S.length ≤ g2.allNodes.length := by
      simp only [tSortInit, List.length_reverse]
      exact List.length_filter_le _ _
    omega
  have hrun := tSortGo_empty_adj (g2.allNodes.length + g2.allEdges.length + 1)
    (tSortInit g2) h1 h2
  rw [tSort_fst_of_go hrun]
  have hc : ¬ (⟨(tSortInit g2).edges, [], (tSortInit g2).L ++ (tSortInit g2).S,
      (tSortInit g2).outN, (tSortInit g2).inN⟩ : TSortState).edges.isEmpty = true := by
    show ¬ (tSortInit g2).edges.isEmpty = true
    rw [List.isEmpty_iff]
    exact hne
  rw [if_neg hc]

theorem SchedEnv.taskOf_url (env : SchedEnv) (u : Url) : (env.taskOf u).url = u := by
  unfold SchedEnv.taskOf
  cases hfind : env.sortedTaskList.find? (fun t => decide (t.url = u)) with
  | none => rfl
  | some t =>
      have h2 := List.find?_some hfind
      simp only [decide_eq_true_eq] at h2
      simpa using h2


theorem scanTask_inv {env : SchedEnv} {s : SchedState} {t : TaskObj}
    {evs : List Event} {s' : SchedState} {e' : List Event}
    (hInv : MasterInv env s evs)
    (h : scanTask env s t = Except.ok (s', e')) :
    MasterInv env s' (evs ++ e') := by
  obtain ⟨hqnd, hqok, hsub, hinit, hfin, hsleep⟩ := hInv
  unfold scanTask at h
  split_ifs at h with h1 h2 h3 h4 h5
  · -- status not TaskInitialized: skipped
    injection h with h
    injection h with hs he
    subst hs; subst he
    exact ⟨hqnd, hqok, hsub, hinit, by simpa using hfin, hsleep⟩
  · -- some prereq not done: skipped
    injection h with h
    injection h with hs he
    subst hs; subst he
    exact ⟨hqnd, hqok, hsub, hinit, by simpa using hfin, hsleep⟩
  · -- mutable collision: delayed
    injection h with h
    injection h with hs he
    subst hs; subst he
    exact ⟨hqnd, hqok, hsub, hinit, by simpa using hfin, hsleep⟩
  · -- satisfied short-circuit: TaskInitialized → TaskDone, finalize
    injection h with h
    injection h with hs he
    subst hs; subst he
    have hst : s.jobStatusMap t.url = TaskStatus.initialized := not_not.mp h1
    refine ⟨hqnd, ?_, ?_, ?_, ?_, hsleep⟩
    · intro t2 ht2
      obtain ⟨hr, hp⟩ := hqok t2 ht2
      have hne : t2.url ≠ t.url := fun he2 => by rw [he2, hst] at hr; simp at hr
      refine ⟨?_, ?_⟩
      · show (if t2.url = t.url then TaskStatus.done else s.jobStatusMap t2.url) =
          TaskStatus.ready
        rw [if_neg hne]; exact hr
      · intro u hu
        have hd := hp u hu
        have hne2 : u ≠ t.url := fun he2 => by rw [he2, hst] at hd; simp at hd
        show (if u = t.url then TaskStatus.done else s.jobStatusMap u) = TaskStatus.done
        rw [if_neg hne2]; exact hd
    · intro turl hturl u hu
      have hturl' : (if turl = t.url then TaskStatus.done else s.jobStatusMap turl) =
          TaskStatus.submitted := hturl
      by_cases he2 : turl = t.url
      · rw [if_pos he2] at hturl'; simp at hturl'
      · rw [if_neg he2] at hturl'
        have hd := hsub turl hturl' u hu
        have hne2 : u ≠ t.url := fun he3 => by rw [he3, hst] at hd; simp at hd
        show (if u = t.url then TaskStatus.done else s.jobStatusMap u) = TaskStatus.done
        rw [if_neg hne2]; exact hd
    · intro u hu
      have hd := hinit u hu
      have hne2 : u ≠ t.url := by
        intro he2
        rw [he2, hst] at hd
        rcases hu with h | h <;> rw [he2] at h <;> rw [h] at hd <;> simp at hd
      show (if u = t.url then TaskStatus.done else s.jobStatusMap u) = initStatus env u
      rw [if_neg hne2]; exact hd
    · intro u
      show (evs ++ [Event.setStatus t.url TaskStatus.done, Event.finalize t.url]).count
          (Event.finalize u) =
        if (if u = t.url then TaskStatus.done else s.jobStatusMap u).Terminal ∧
            ¬ (initStatus env u).Terminal then 1 else 0
      by_cases hu : u = t.url
      · have hni : ¬ (initStatus env u).Terminal := by
          intro hterm
          have hd := hinit u hterm
          rw [hu, hst] at hd
          rcases hterm with h | h <;> rw [hu] at h <;> rw [h] at hd <;> simp at hd
        have h0 : evs.count (Event.finalize u) = 0 := by
          rw [hfin u, if_neg]
          rintro ⟨hterm, -⟩
          rcases hterm with h | h <;> rw [hu, hst] at h <;> simp at h
        rw [List.count_append, h0, if_pos hu,
          if_pos ⟨Or.inl rfl, hni⟩]
        simp [List.count_cons, List.count_nil, beq_iff_eq, hu]
      · have hcnt : ([Event.setStatus t.url TaskStatus.done,
            Event.finalize t.url] : List Event).count (Event.finalize u) = 0 := by
          simp [List.count_cons, List.count_nil, beq_iff_eq, Ne.symm hu]
        rw [List.count_append, hcnt, Nat.add_zero, if_neg hu, hfin u]
  · -- admitted to the ready queue
    injection h with h
    injection h with hs he
    subst hs; subst he
    have hst : s.jobStatusMap t.url = TaskStatus.initialized := not_not.mp h1
    push_neg at h2
    refine ⟨?_, ?_, ?_, ?_, ?_, hsleep⟩
    · -- queue_nodup
      have htne : t.url ∉ s.jobsReadyToBeSubmitted.map TaskObj.url := by
        intro hmem
        obtain ⟨t2, ht2, ht2u⟩ := List.mem_map.mp hmem
        have hr := (hqok t2 ht2).1
        rw [ht2u, hst] at hr
        simp at hr
      show ((s.jobsReadyToBeSubmitted ++ [t]).map TaskObj.url).Nodup
      rw [List.map_append]
      refine hqnd.append (List.nodup_singleton _) ?_
      intro x hx hx2
      simp only [List.map_cons, List.map_nil, List.mem_singleton] at hx2
      exact htne (hx2 ▸ hx)
    · -- queue_ok
      intro t2 ht2
      have ht2' : t2 ∈ s.jobsReadyToBeSubmitted ∨ t2 = t := by
        rcases List.mem_append.mp ht2 with h | h
        · exact Or.inl h
        · exact Or.inr (List.mem_singleton.mp h)
      rcases ht2' with hmem | rfl
      · obtain ⟨hr, hp⟩ := hqok t2 hmem
        have hne : t2.url ≠ t.url := fun he2 => by rw [he2, hst] at hr; simp at hr
        refine ⟨?_, ?_⟩
        · show (if t2.url = t.url then TaskStatus.ready else s.jobStatusMap t2.url) =
            TaskStatus.ready
          rw [if_neg hne]; exact hr
        · intro u hu
          have hd := hp u hu
          have hne2 : u ≠ t.url := fun he3 => by rw [he3, hst] at hd; simp at hd
          show (if u = t.url then TaskStatus.ready else s.jobStatusMap u) = TaskStatus.done
          rw [if_neg hne2]; exact hd
      · refine ⟨?_, ?_⟩
        · show (if t2.url = t2.url then TaskStatus.ready else s.jobStatusMap t2.url) =
            TaskStatus.ready
          rw [if_pos rfl]
        · intro u hu
          have hd := h2 u hu
          have hne2 : u ≠ t2.url := fun he3 => by rw [he3, hst] at hd; simp at hd
          show (if u = t2.url then TaskStatus.ready else s.jobStatusMap u) = TaskStatus.done
          rw [if_neg hne2]; exact hd
    · -- submitted_ok
      intro turl hturl u hu
      have hturl' : (if turl = t.url then TaskStatus.ready else s.jobStatusMap turl) =
          TaskStatus.submitted := hturl
      by_cases he2 : turl = t.url
      · rw [if_pos he2] at hturl'; simp at hturl'
      · rw [if_neg he2] at hturl'
        have hd := hsub turl hturl' u hu
        have hne2 : u ≠ t.url := fun he3 => by rw [he3, hst] at hd; simp at hd
        show (if u = t.url then TaskStatus.ready else s.jobStatusMap u) = TaskStatus.done
        rw [if_neg hne2]; exact hd
    · -- init_terminal
      intro u hu
      have hd := hinit u hu
      have hne2 : u ≠ t.url := by
        intro he2
        rw [he2, hst] at hd
        rcases hu with h | h <;> rw [he2] at h <;> rw [h] at hd <;> simp at hd
      show (if u = t.url then TaskStatus.ready else s.jobStatusMap u) = initStatus env u
      rw [if_neg hne2]; exact hd
    · -- finalize_count
      intro u
      show (evs ++ [Event.setStatus t.url TaskStatus.ready]).count (Event.finalize u) =
        if (if u = t.url then TaskStatus.ready else s.jobStatusMap u).Terminal ∧
            ¬ (initStatus env u).Terminal then 1 else 0
      have hcnt : ([Event.setStatus t.url TaskStatus.ready] : List Event).count
          (Event.finalize u) = 0 := by
        simp [List.count_cons, List.count_nil]
      rw [List.count_append, hcnt, Nat.add_zero, hfin u]
      by_cases hu : u = t.url
      · rw [if_pos hu, hu, hst]
        rw [if_neg (by rintro ⟨hc, -⟩; rcases hc with h | h <;> simp at h),
            if_neg (by rintro ⟨hc, -⟩; rcases hc with h | h <;> simp at h)]
      · rw [if_neg hu]

theorem scanList_inv {env : SchedEnv} :
    ∀ (ts : List TaskObj) {s : SchedState} {evs : List Event}
      {s' : SchedState} {e' : List Event},
    MasterInv env s evs → scanList env ts s = Except.ok (s', e') →
    MasterInv env s' (evs ++ e') := by
  intro ts
  induction ts with
  | nil =>
      intro s evs s' e' hInv h
      unfold scanList at h
      injection h with h
      injection h with hs he
      subst hs; subst he
      simpa using hInv
  | cons t ts ih =>
      intro s evs s' e' hInv h
      unfold scanList at h
      split at h
      · simp at h
      next s1 e1 hscan =>
        split at h
        · simp at h
        next s2 e2 hrest =>
          injection h with h
          injection h with hs he
          subst hs; subst he
          have h1 := scanTask_inv hInv hscan
          have h2 := ih h1 hrest
          simpa [List.append_assoc] using h2

theorem submitLoop_inv {env : SchedEnv} :
    ∀ (q : List TaskObj) (alive : Int) (s : SchedState) (evs : List Event),
    (q.map TaskObj.url).Nodup →
    (∀ t ∈ q, s.jobStatusMap t.url = TaskStatus.ready ∧
        ∀ u ∈ env.prereqJobURLMap t.url, s.jobStatusMap u = TaskStatus.done) →
    s.jobsReadyToBeSubmitted = [] →
    (∀ turl, s.jobStatusMap turl = TaskStatus.submitted →
        ∀ u ∈ env.prereqJobURLMap turl, s.jobStatusMap u = TaskStatus.done) →
    (∀ u, (initStatus env u).Terminal → s.jobStatusMap u = initStatus env u) →
    (∀ u, evs.count (Event.finalize u) =
        if (s.jobStatusMap u).Terminal ∧ ¬ (initStatus env u).Terminal then 1 else 0) →
    SleepReach s.sleepTime →
    MasterInv env (submitLoop env q alive s).1 (evs ++ (submitLoop env q alive s).2) := by
  intro q
  induction q with
  | nil =>
      intro alive s evs hqnd hq hqueue hsub hinit hfin hsleep
      unfold submitLoop
      refine ⟨by simp, ?_, hsub, hinit, by simpa using hfin, hsleep⟩
      intro t ht
      exact absurd ht (List.not_mem_nil t)
  | cons t rest ih =>
      intro alive s evs hqnd hq hqueue hsub hinit hfin hsleep
      have hts : s.jobStatusMap t.url = TaskStatus.ready :=
        (hq t (List.mem_cons_self t rest)).1
      have htp : ∀ u ∈ env.prereqJobURLMap t.url, s.jobStatusMap u = TaskStatus.done :=
        (hq t (List.mem_cons_self t rest)).2
      have hrestnd : (rest.map TaskObj.url).Nodup := by
        rw [List.map_cons] at hqnd
        exact (List.nodup_cons.mp hqnd).2
      have htnotin : t.url ∉ rest.map TaskObj.url := by
        rw [List.map_cons] at hqnd
        exact (List.nodup_cons.mp hqnd).1
      unfold submitLoop
      split_ifs with hcond
      · -- head submitted
        have hq2 : ∀ t2 ∈ rest, (submitStep s t).jobStatusMap t2.url = TaskStatus.ready ∧
            ∀ u ∈ env.prereqJobURLMap t2.url,
              (submitStep s t).jobStatusMap u = TaskStatus.done := by
          intro t2 ht2
          obtain ⟨hr, hp⟩ := hq t2 (List.mem_cons_of_mem t ht2)
          have hne : t2.url ≠ t.url := by
            intro he
            exact htnotin (he ▸ List.mem_map_of_mem TaskObj.url ht2)
          refine ⟨?_, ?_⟩
          · show (if t2.url = t.url then TaskStatus.submitted else s.jobStatusMap t2.url) =
              TaskStatus.ready
            rw [if_neg hne]; exact hr
          · intro u hu
            have hd := hp u hu
            have hne2 : u ≠ t.url := fun he => by rw [he, hts] at hd; simp at hd
            show (if u = t.url then TaskStatus.submitted else s.jobStatusMap u) =
              TaskStatus.done
            rw [if_neg hne2]; exact hd
        have hsub2 : ∀ turl, (submitStep s t).jobStatusMap turl = TaskStatus.submitted →
            ∀ u ∈ env.prereqJobURLMap turl,
              (submitStep s t).jobStatusMap u = TaskStatus.done := by
          intro turl hturl u hu
          have hturl2 : (if turl = t.url then TaskStatus.submitted else s.jobStatusMap turl) =
              TaskStatus.submitted := hturl
          by_cases he : turl = t.url
          · have hd := htp u (he ▸ hu)
            have hne2 : u ≠ t.url := fun he2 => by rw [he2, hts] at hd; simp at hd
            show (if u = t.url then TaskStatus.submitted else s.jobStatusMap u) =
              TaskStatus.done
            rw [if_neg hne2]; exact hd
          · rw [if_neg he] at hturl2
            have hd := hsub turl hturl2 u hu
            have hne2 : u ≠ t.url := fun he2 => by rw [he2, hts] at hd; simp at hd
            show (if u = t.url then TaskStatus.submitted else s.jobStatusMap u) =
              TaskStatus.done
            rw [if_neg hne2]; exact hd
        have hinit2 : ∀ u, (initStatus env u).Terminal →
            (submitStep s t).jobStatusMap u = initStatus env u := by
          intro u hu
          have hd := hinit u hu
          have hne2 : u ≠ t.url := by
            intro he
            rw [he, hts] at hd
            rcases hu with h | h <;> rw [he] at h <;> rw [h] at hd <;> simp at hd
          show (if u = t.url then TaskStatus.submitted else s.jobStatusMap u) =
            initStatus env u
          rw [if_neg hne2]; exact hd
        have hfin2 : ∀ u, ((evs ++ [Event.submitThread t.url,
            Event.setStatus t.url TaskStatus.submitted]).count (Event.finalize u)) =
            if ((submitStep s t).jobStatusMap u).Terminal ∧ ¬ (initStatus env u).Terminal
            then 1 else 0 := by
          intro u
          have hcnt : ([Event.submitThread t.url,
              Event.setStatus t.url TaskStatus.submitted] : List Event).count
              (Event.finalize u) = 0 := by
            simp [List.count_cons, List.count_nil]
          rw [List.count_append, hcnt, Nat.add_zero, hfin u]
          show _ = if (if u = t.url then TaskStatus.submitted
              else s.jobStatusMap u).Terminal ∧ ¬ (initStatus env u).Terminal
            then 1 else 0
          by_cases hu : u = t.url
          · rw [if_pos hu, hu, hts]
            rw [if_neg (by rintro ⟨hc, -⟩; rcases hc with h | h <;> simp at h),
                if_neg (by rintro ⟨hc, -⟩; rcases hc with h | h <;> simp at h)]
          · rw [if_neg hu]
        have hrec := ih (alive + 1) (submitStep s t)
          (evs ++ [Event.submitThread t.url, Event.setStatus t.url TaskStatus.submitted])
          hrestnd hq2 hqueue hsub2 hinit2 hfin2 hsleep
        simpa [List.append_assoc] using hrec
      · -- break: the whole queue stays
        refine ⟨hqnd, hq, hsub, hinit, by simpa using hfin, hsleep⟩

theorem submitReadyJobs_inv {env : SchedEnv} {alive : Int} {s : SchedState}
    {evs : List Event} (hInv : MasterInv env s evs) :
    MasterInv env (submitReadyJobs env alive s).1
      (evs ++ (submitReadyJobs env alive s).2) := by
  unfold submitReadyJobs
  exact submitLoop_inv s.jobsReadyToBeSubmitted alive
    { s with jobsReadyToBeSubmitted := [] } evs hInv.queue_nodup hInv.queue_ok rfl
    hInv.submitted_ok hInv.init_terminal hInv.finalize_count hInv.sleep_bound

theorem sleepReach_step {q : ℚ} (h : SleepReach q) : SleepReach (sleepStep q) := by
  obtain ⟨k, hk, rfl⟩ := h
  rcases Nat.lt_or_ge k 12 with hlt | hge
  · exact ⟨k + 1, by omega, (Function.iterate_succ_apply' sleepStep k 0).symm⟩
  · have hk12 : k = 12 := by omega
    subst hk12
    exact ⟨12, le_refl 12, by decide⟩

theorem sleepIter_le_sup : ∀ k ≤ 12, sleepIter k ≤ sleepIter 11 := by decide

theorem sleepReach_le_sup {q : ℚ} (h : SleepReach q) : q ≤ sleepIter 11 := by
  obtain ⟨k, hk, rfl⟩ := h
  exact sleepIter_le_sup k hk

theorem sleepStep_ge_one {q : ℚ} (h : 1 ≤ q) : sleepStep q = 1 := by
  unfold sleepStep
  rw [if_neg (not_lt.mpr h)]

theorem sleepUpdate_inv {env : SchedEnv} {s : SchedState} {evs : List Event}
    (hInv : MasterInv env s evs) : MasterInv env (sleepUpdate s) evs := by
  obtain ⟨h1, h2, h3, h4, h5, h6⟩ := hInv
  exact ⟨h1, h2, h3, h4, h5, sleepReach_step h6⟩

theorem drainUpdate_queue_ok {env : SchedEnv} {s : SchedState} {u : Url} {X : TaskStatus}
    (hqok : ∀ t ∈ s.jobsReadyToBeSubmitted, s.jobStatusMap t.url = TaskStatus.ready ∧
        ∀ v ∈ env.prereqJobURLMap t.url, s.jobStatusMap v = TaskStatus.done)
    (hwf : s.jobStatusMap u = TaskStatus.submitted ∨
           s.jobStatusMap u = TaskStatus.started true) :
    ∀ t ∈ s.jobsReadyToBeSubmitted,
      (if t.url = u then X else s.jobStatusMap t.url) = TaskStatus.ready ∧
      ∀ v ∈ env.prereqJobURLMap t.url,
        (if v = u then X else s.jobStatusMap v) = TaskStatus.done := by
  intro t ht
  obtain ⟨hr, hp⟩ := hqok t ht
  have hne : t.url ≠ u := by
    intro he
    rw [he] at hr
    rcases hwf with h | h <;> rw [h] at hr <;> simp at hr
  refine ⟨by rw [if_neg hne]; exact hr, ?_⟩
  intro v hv
  have hd := hp v hv
  have hne2 : v ≠ u := by
    intro he
    rw [he] at hd
    rcases hwf with h | h <;> rw [h] at hd <;> simp at hd
  rw [if_neg hne2]; exact hd

theorem drainUpdate_submitted_ok {env : SchedEnv} {s : SchedState} {u : Url}
    {X : TaskStatus}
    (hsub : ∀ turl, s.jobStatusMap turl = TaskStatus.submitted →
        ∀ v ∈ env.prereqJobURLMap turl, s.jobStatusMap v = TaskStatus.done)
    (hwf : s.jobStatusMap u = TaskStatus.submitted ∨
           s.jobStatusMap u = TaskStatus.started true)
    (hX : X ≠ TaskStatus.submitted) :
    ∀ turl, (if turl = u then X else s.jobStatusMap turl) = TaskStatus.submitted →
      ∀ v ∈ env.prereqJobURLMap turl,
        (if v = u then X else s.jobStatusMap v) = TaskStatus.done := by
  intro turl hturl v hv
  by_cases he : turl = u
  · rw [if_pos he] at hturl
    exact absurd hturl hX
  · rw [if_neg he] at hturl
    have hd := hsub turl hturl v hv
    have hne2 : v ≠ u := by
      intro he2
      rw [he2] at hd
      rcases hwf with h | h <;> rw [h] at hd <;> simp at hd
    rw [if_neg hne2]; exact hd

theorem drainUpdate_init_terminal {env : SchedEnv} {s : SchedState} {u : Url}
    {X : TaskStatus}
    (hinit : ∀ w, (initStatus env w).Terminal → s.jobStatusMap w = initStatus env w)
    (hwf : s.jobStatusMap u = TaskStatus.submitted ∨
           s.jobStatusMap u = TaskStatus.started true) :
    ∀ w, (initStatus env w).Terminal →
      (if w = u then X else s.jobStatusMap w) = initStatus env w := by
  intro w hw
  have hd := hinit w hw
  have hne : w ≠ u := by
    intro he
    rw [he] at hd
    rcases hw with h | h <;> rw [he] at h <;> rw [h] at hd <;>
      rcases hwf with h2 | h2 <;> rw [h2] at hd <;> simp at hd
  rw [if_neg hne]; exact hd

theorem drainUpdate_not_init_terminal {env : SchedEnv} {s : SchedState} {u : Url}
    (hinit : ∀ w, (initStatus env w).Terminal → s.jobStatusMap w = initStatus env w)
    (hwf : s.jobStatusMap u = TaskStatus.submitted ∨
           s.jobStatusMap u = TaskStatus.started true) :
    ¬ (initStatus env u).Terminal := by
  intro hterm
  have hd := hinit u hterm
  rcases hterm with h | h <;> rw [h] at hd <;>
    rcases hwf with h2 | h2 <;> rw [h2] at hd <;> simp at hd

theorem count_finalize_terminal {evs : List Event} {u w : Url} {X : TaskStatus}
    {s : SchedState} {env : SchedEnv}
    (hfin : ∀ v, evs.count (Event.finalize v) =
        if (s.jobStatusMap v).Terminal ∧ ¬ (initStatus env v).Terminal then 1 else 0)
    (hwf : s.jobStatusMap u = TaskStatus.submitted ∨
           s.jobStatusMap u = TaskStatus.started true)
    (hni : ¬ (initStatus env u).Terminal)
    (hX : X.Terminal) :
    (evs ++ [Event.setStatus u X, Event.finalize u, Event.release u]).count
        (Event.finalize w) =
      if (if w = u then X else s.jobStatusMap w).Terminal ∧
          ¬ (initStatus env w).Terminal then 1 else 0 := by
  by_cases hwu : w = u
  · have hcount0 : evs.count (Event.finalize w) = 0 := by
      rw [hfin w, if_neg]
      rintro ⟨hterm, -⟩
      rcases hterm with h2 | h2 <;> rw [hwu] at h2 <;>
        rcases hwf with h3 | h3 <;> rw [h3] at h2 <;> simp at h2
    rw [List.count_append, hcount0, if_pos ⟨by rw [if_pos hwu]; exact hX, hwu ▸ hni⟩]
    simp [List.count_cons, List.count_nil, beq_iff_eq, hwu]
  · have hcnt : ([Event.setStatus u X, Event.finalize u, Event.release u] :
        List Event).count (Event.finalize w) = 0 := by
      simp [List.count_cons, List.count_nil, beq_iff_eq, Ne.symm hwu]
    rw [List.count_append, hcnt, Nat.add_zero, hfin w, if_neg hwu]

theorem count_finalize_nonterminal {evs : List Event} {u w : Url} {X : TaskStatus}
    {s : SchedState} {env : SchedEnv}
    (hfin : ∀ v, evs.count (Event.finalize v) =
        if (s.jobStatusMap v).Terminal ∧ ¬ (initStatus env v).Terminal then 1 else 0)
    (hwf : s.jobStatusMap u = TaskStatus.submitted ∨
           s.jobStatusMap u = TaskStatus.started true)
    (hX : ¬ X.Terminal) :
    (evs ++ [Event.setStatus u X]).count (Event.finalize w) =
      if (if w = u then X else s.jobStatusMap w).Terminal ∧
          ¬ (initStatus env w).Terminal then 1 else 0 := by
  have hcnt : ([Event.setStatus u X] : List Event).count (Event.finalize w) = 0 := by
    simp [List.count_cons, List.count_nil]
  rw [List.count_append, hcnt, Nat.add_zero, hfin w]
  by_cases hwu : w = u
  · rw [if_pos hwu]
    rw [if_neg, if_neg]
    · rintro ⟨hterm, -⟩; exact hX hterm
    · rintro ⟨hterm, -⟩
      rcases hterm with h2 | h2 <;> rw [hwu] at h2 <;>
        rcases hwf with h3 | h3 <;> rw [h3] at h2 <;> simp at h2
  · rw [if_neg hwu]

theorem drainOne_inv {env : SchedEnv} {s : SchedState} {u : Url} {m : Message}
    {evs : List Event} {s' : SchedState} {e' : List Event}
    (hInv : MasterInv env s evs)
    (hwf : s.jobStatusMap u = TaskStatus.submitted ∨
           s.jobStatusMap u = TaskStatus.started true)
    (h : drainOne env s u m = Except.ok (s', e')) :
    MasterInv env s' (evs ++ e') := by
  obtain ⟨hqnd, hqok, hsub, hinit, hfin, hsleep⟩ := hInv
  have hni : ¬ (initStatus env u).Terminal := drainUpdate_not_init_terminal hinit hwf
  have hto : (env.taskOf u).url = u := env.taskOf_url u
  cases m with
  | done =>
      injection h with h
      injection h with hs he
      subst hs; subst he
      rw [hto]
      refine ⟨hqnd, ?_, ?_, ?_, ?_, ⟨0, by omega, rfl⟩⟩
      · exact fun t ht => drainUpdate_queue_ok hqok hwf t ht
      · exact fun turl ht => drainUpdate_submitted_ok hsub hwf (by decide) turl ht
      · exact fun w hw => drainUpdate_init_terminal hinit hwf w hw
      · exact fun w => count_finalize_terminal hfin hwf hni (by decide)
  | fail =>
      injection h with h
      injection h with hs he
      subst hs; subst he
      rw [hto]
      refine ⟨hqnd, ?_, ?_, ?_, ?_, ⟨0, by omega, rfl⟩⟩
      · exact fun t ht => drainUpdate_queue_ok hqok hwf t ht
      · exact fun turl ht => drainUpdate_submitted_ok hsub hwf (by decide) turl ht
      · exact fun w hw => drainUpdate_init_terminal hinit hwf w hw
      · exact fun w => count_finalize_terminal hfin hwf hni (by decide)
  | started b =>
      cases b with
      | true =>
          injection h with h
          injection h with hs he
          subst hs; subst he
          refine ⟨hqnd, ?_, ?_, ?_, ?_, ⟨0, by omega, rfl⟩⟩
          · exact fun t ht => drainUpdate_queue_ok hqok hwf t ht
          · exact fun turl ht => drainUpdate_submitted_ok hsub hwf (by decide) turl ht
          · exact fun w hw => drainUpdate_init_terminal hinit hwf w hw
          · exact fun w => count_finalize_nonterminal hfin hwf (by decide)
      | false => simp [drainOne] at h
  | other =>
      injection h with h
      injection h with hs he
      subst hs; subst he
      refine ⟨hqnd, ?_, ?_, ?_, ?_, ⟨0, by omega, rfl⟩⟩
      · exact fun t ht => drainUpdate_queue_ok hqok hwf t ht
      · exact fun turl ht => drainUpdate_submitted_ok hsub hwf (by decide) turl ht
      · exact fun w hw => drainUpdate_init_terminal hinit hwf w hw
      · exact fun w => count_finalize_nonterminal hfin hwf (by decide)

theorem drainAll_inv {env : SchedEnv} :
    ∀ (ms : List (Url × Message)) {s : SchedState} {evs : List Event}
      {s' : SchedState} {e' : List Event},
    MasterInv env s evs → wfMessages env s ms = true →
    drainAll env ms s = Except.ok (s', e') → MasterInv env s' (evs ++ e') := by
  intro ms
  induction ms with
  | nil =>
      intro s evs s' e' hInv _ h
      unfold drainAll at h
      injection h with h
      injection h with hs he
      subst hs; subst he
      simpa using hInv
  | cons p ms ih =>
      obtain ⟨u, m⟩ := p
      intro s evs s' e' hInv hwf h
      unfold wfMessages at hwf
      rw [Bool.and_eq_true] at hwf
      obtain ⟨hw1, hw2⟩ := hwf
      have hst := of_decide_eq_true hw1
      unfold drainAll at h
      split at h
      · simp at h
      next s1 e1 hdr =>
        split at h
        · simp at h
        next s2 e2 hrest =>
          injection h with h
          injection h with hs he
          subst hs; subst he
          have hw2' : wfMessages env s1 ms = true := by
            rw [hdr] at hw2
            exact hw2
          have h1 := drainOne_inv hInv hst hdr
          have h2 := ih h1 hw2' hrest
          simpa [List.append_assoc] using h2

theorem preDrain_inv {env : SchedEnv} {inp : TickInput} {s : SchedState}
    {evs : List Event} {s' : SchedState} {e' : List Event}
    (hInv : MasterInv env s evs)
    (h : preDrain env inp s = Except.ok (s', e')) :
    MasterInv env s' (evs ++ e') := by
  unfold preDrain at h
  split at h
  · simp at h
  next s1 e1 hscan =>
    injection h with h
    injection h with hs he
    subst hs; subst he
    have h1 := scanList_inv env.sortedTaskList hInv hscan
    have h2 := @submitReadyJobs_inv _ inp.numAliveThreads _ _ h1
    have h3 := sleepUpdate_inv h2
    simpa [List.append_assoc] using h3

theorem refreshTick_inv {env : SchedEnv} {eof : Bool} {inp : TickInput}
    {s : SchedState} {evs : List Event} {s' : SchedState} {e' : List Event}
    (hInv : MasterInv env s evs)
    (hwf : (match preDrain env inp s with
            | Except.ok (s1, _) => wfMessages env s1 inp.messages
            | Except.error _ => true) = true)
    (h : refreshTick env eof inp s = Except.ok (s', e')) :
    MasterInv env s' (evs ++ e') := by
  unfold refreshTick at h
  split at h
  · simp at h
  next s1 e1 hpre =>
    rw [hpre] at hwf
    split at h
    · simp at h
    next s2 e2 hdrain =>
      split at h
      · simp at h
      · injection h with h
        injection h with hs he
        subst hs; subst he
        have h1 := preDrain_inv hInv hpre
        have h2 := drainAll_inv inp.messages h1 hwf hdrain
        simpa [List.append_assoc] using h2

theorem refreshRun_inv {env : SchedEnv} {eof : Bool} :
    ∀ (inps : List TickInput) {s : SchedState} {evs : List Event}
      {s' : SchedState} {e' : List Event},
    MasterInv env s evs → wfRun env eof s inps = true →
    refreshRun env eof inps s = Except.ok (s', e') → MasterInv env s' (evs ++ e') := by
  intro inps
  induction inps with
  | nil =>
      intro s evs s' e' hInv _ h
      unfold refreshRun at h
      injection h with h
      injection h with hs he
      subst hs; subst he
      simpa using hInv
  | cons inp inps ih =>
      intro s evs s' e' hInv hwf h
      unfold wfRun at hwf
      rw [Bool.and_eq_true] at hwf
      obtain ⟨hw1, hw2⟩ := hwf
      unfold refreshRun at h
      split at h
      · simp at h
      next s1 e1 htick =>
        rw [htick] at hw2
        split at h
        · simp at h
        next s2 e2 hrest =>
          injection h with h
          injection h with hs he
          subst hs; subst he
          have h1 := refreshTick_inv hInv hw1 htick
          have h2 := ih h1 hw2 hrest
          simpa [List.append_assoc] using h2

theorem initState_masterInv {env : SchedEnv} (hwf : EnvWf env) :
    MasterInv env (initState env) [] := by
  obtain ⟨hnd, hstat⟩ := hwf
  refine ⟨by simp [initState], ?_, ?_, ?_, ?_, ⟨0, by omega, rfl⟩⟩
  · intro t ht
    exact absurd ht (List.not_mem_nil t)
  · intro turl hturl u hu
    exfalso
    revert hturl
    show ((env.sortedTaskList.find? (fun t => t.url = turl)).map TaskObj.status).getD
        TaskStatus.unknown = TaskStatus.submitted → False
    cases hfind : env.sortedTaskList.find? (fun t => t.url = turl) with
    | none => simp
    | some t =>
        have hmem : t ∈ env.sortedTaskList := List.mem_of_find?_eq_some hfind
        rcases hstat t hmem with h | h | h <;> simp [h]
  · intro u _
    rfl
  · intro u
    rw [List.count_nil, if_neg]
    rintro ⟨h1, h2⟩
    exact h2 h1

theorem drainOne_sleep {env : SchedEnv} {s : SchedState} {u : Url} {m : Message}
    {s1 : SchedState} {e1 : List Event}
    (h : drainOne env s u m = Except.ok (s1, e1)) : s1.sleepTime = 0 := by
  cases m with
  | done =>
      injection h with h
      injection h with hs he
      subst hs
      rfl
  | fail =>
      injection h with h
      injection h with hs he
      subst hs
      rfl
  | started b =>
      cases b with
      | true =>
          injection h with h
          injection h with hs he
          subst hs
          rfl
      | false => simp [drainOne] at h
  | other =>
      injection h with h
      injection h with hs he
      subst hs
      rfl

theorem drainAll_sleep_reset {env : SchedEnv} :
    ∀ (ms : List (Url × Message)) {s s2 : SchedState} {e2 : List Event},
    ms ≠ [] → drainAll env ms s = Except.ok (s2, e2) → s2.sleepTime = 0 := by
  intro ms
  induction ms with
  | nil => intro s s2 e2 hne; exact absurd rfl hne
  | cons p ms ih =>
      obtain ⟨u, m⟩ := p
      intro s s2 e2 _ h
      unfold drainAll at h
      split at h
      · simp at h
      next s1 e1 hdr =>
        split at h
        · simp at h
        next s3 e3 hrest =>
          injection h with h
          injection h with hs he
          subst hs
          cases ms with
          | nil =>
              unfold drainAll at hrest
              injection hrest with hr
              injection hr with hr1 hr2
              rw [← hr1]
              exact drainOne_sleep hdr
          | cons q qs => exact ih (by simp) hrest

/-! ## Claims -/

/-- C1: in `_refreshTargets`, a task whose status is `TaskInitialized`
but that has a transitive prereq task whose status is not `"done"` is
skipped by the admission scan, leaving the state unchanged and
appending nothing to the ready queue; and over every well-formed run of
the refresh loop, a task has status `"submitted"` only when every one
of its transitive prereq tasks has status `"done"` in `jobStatusMap`. -/
theorem refreshTargets_submit_only_after_prereqs_done :
    (∀ (env : SchedEnv) (s : SchedState) (t : TaskObj),
      s.jobStatusMap t.url = TaskStatus.initialized →
      (∃ u ∈ env.prereqJobURLMap t.url, s.jobStatusMap u ≠ TaskStatus.done) →
      scanTask env s t = Except.ok (s, [])) ∧
    (∀ (env : SchedEnv) (eof : Bool) (inps : List TickInput)
        (s' : SchedState) (evs : List Event),
      EnvWf env → wfRun env eof (initState env) inps = true →
      refreshRun env eof inps (initState env) = Except.ok (s', evs) →
      ∀ turl, s'.jobStatusMap turl = TaskStatus.submitted →
        ∀ u ∈ env.prereqJobURLMap turl, s'.jobStatusMap u = TaskStatus.done) := by
  constructor
  · intro env s t h1 h2
    unfold scanTask
    rw [if_neg (not_not_intro h1), if_pos h2]
  · intro env eof inps s' evs hwf hwfrun hrun
    exact (refreshRun_inv inps (initState_masterInv hwf) hwfrun hrun).submitted_ok

theorem refreshTargets_submit_only_after_prereqs_done_witness :
    scanTask exEnv (initState exEnv) exTaskB = Except.ok (initState exEnv, []) :=
  refreshTargets_submit_only_after_prereqs_done.1 exEnv (initState exEnv) exTaskB
    (by decide) (by decide)

/-- C2: on every coherent dependency graph, `tSort` (Kahn's algorithm:
pop an in-degree-0 node, append it to the output, remove its outgoing
edges) returns a list of all node objects in a topological order of the
prereq DAG exactly when the graph is acyclic, and raises the cycle
error (edges remain unremoved after the loop) exactly when the graph
has a cycle. -/
theorem tSort_kahn_spec (g : PypeGraph) (hg : g.Coherent) :
    (g.Acyclic ↔ ∃ L, (g.tSort).1 = Except.ok L) ∧
    (¬ g.Acyclic ↔ (g.tSort).1 = Except.error TSortError.circleDetected) ∧
    (∀ L, (g.tSort).1 = Except.ok L →
      L.Perm g.allNodes ∧ ∀ e ∈ g.allEdges, L.indexOf e.1 < L.indexOf e.2) := by
  obtain ⟨st2, htsort, hInv, hS⟩ := tSort_final hg
  have hfst : (g.tSort).1 =
      (if st2.edges.isEmpty then Except.ok st2.L
       else Except.error TSortError.circleDetected) := by rw [htsort]
  by_cases hemp : st2.edges.isEmpty
  · have hempl : st2.edges = [] := List.isEmpty_iff.mp hemp
    obtain ⟨hsub, hperm, htopoIdx, hAc⟩ := tSort_success_core hg hInv hS hempl
    rw [if_pos hemp] at hfst
    refine ⟨iff_of_true hAc ⟨st2.L, hfst⟩, ?_, ?_⟩
    · constructor
      · intro h; exact absurd hAc h
      · intro h; rw [hfst] at h; cases h
    · intro L hL
      rw [hfst] at hL
      injection hL with hL
      subst hL
      exact ⟨hperm, htopoIdx⟩
  · have hnel : st2.edges ≠ [] := fun h => hemp (by rw [h]; rfl)
    have hNA : ¬ g.Acyclic := tSort_failure_core hg hInv hS hnel
    rw [if_neg hemp] at hfst
    refine ⟨?_, iff_of_true hNA hfst, ?_⟩
    · constructor
      · intro h; exact absurd h hNA
      · rintro ⟨L, hL⟩; rw [hfst] at hL; cases hL
    · intro L hL
      rw [hfst] at hL
      cases hL

theorem tSort_kahn_spec_witness :
    (exCyc.tSort).1 = Except.error TSortError.circleDetected :=
  (tSort_kahn_spec exCyc (by decide)).2.1.mp
    (fun hac => hac "a"
      (Relation.TransGen.tail
        (Relation.TransGen.single (show exCyc.edgeRel "a" "b" by decide))
        (show exCyc.edgeRel "b" "a" by decide)))

/-- C3 (amended): after the refresh loop exits normally, the code first
invokes `self._runCallback(callback)` unconditionally — also when
failures were counted — and only then, if the failed-job count is
nonzero, raises `LateTaskFailureError` reporting both counts, else
returns `True`.  (The claim's assertion that the terminal callback runs
only in the no-failure case is refuted by
`refreshEpilogue_callback_on_failure_cex`.) -/
theorem refreshEpilogue_spec (cb : PyVal × PyVal × PyVal) (s : SchedState)
    (hcb : runCallback cb = Except.ok ()) :
    (refreshEpilogue cb s).1 = [Event.runCallback] ∧
    (s.failedJobCount ≠ 0 →
      (refreshEpilogue cb s).2 =
        Except.error (SchedError.lateTaskFailure s.failedJobCount s.succeededJobCount)) ∧
    (s.failedJobCount = 0 → (refreshEpilogue cb s).2 = Except.ok true) := by
  refine ⟨rfl, ?_, ?_⟩
  · intro hne
    show (match runCallback cb with
          | Except.error e => Except.error e
          | Except.ok _ =>
              if s.failedJobCount ≠ 0 then
                Except.error (SchedError.lateTaskFailure s.failedJobCount s.succeededJobCount)
              else Except.ok true) = _
    rw [hcb, if_pos hne]
  · intro hz
    show (match runCallback cb with
          | Except.error e => Except.error e
          | Except.ok _ =>
              if s.failedJobCount ≠ 0 then
                Except.error (SchedError.lateTaskFailure s.failedJobCount s.succeededJobCount)
              else Except.ok true) = _
    rw [hcb, if_neg (not_not_intro hz)]

/-- C3 counterexample: with one counted failure (and two successes) the
epilogue still performs the `_runCallback` invocation before raising
`LateTaskFailureError`, so the terminal callback is not invoked only in
the no-failure case. -/
theorem refreshEpilogue_callback_on_failure_cex :
    sFail.failedJobCount = 1 ∧
    (refreshEpilogue (PyVal.pyNone, PyVal.pyNone, PyVal.pyNone) sFail).1 =
      [Event.runCallback] ∧
    (refreshEpilogue (PyVal.pyNone, PyVal.pyNone, PyVal.pyNone) sFail).2 =
      Except.error (SchedError.lateTaskFailure 1 2) :=
  ⟨rfl, rfl, rfl⟩

theorem refreshEpilogue_spec_witness :
    (refreshEpilogue (PyVal.pyNone, PyVal.pyNone, PyVal.pyNone) exDrainState).1 =
      [Event.runCallback] ∧
    (refreshEpilogue (PyVal.pyNone, PyVal.pyNone, PyVal.pyNone) exDrainState).2 =
      Except.ok true := by
  obtain ⟨h1, _, h3⟩ :=
    refreshEpilogue_spec (PyVal.pyNone, PyVal.pyNone, PyVal.pyNone) exDrainState rfl
  exact ⟨h1, h3 rfl⟩

/-- C4: the prompt-failure check after the drain raises
`TaskFailureError` exactly when the failed-job count is positive and
either `exitOnFailure` is set or the succeeded-job count is zero; in
particular, with `exitOnFailure = false` and at least one counted
success, a failure does not raise inside the loop. -/
theorem promptFailureCheck_iff :
    ∀ (exitOnFailure : Bool) (s : SchedState),
      promptFailureCheck exitOnFailure s =
          Except.error (SchedError.taskFailure s.failedJobCount) ↔
        (0 < s.failedJobCount ∧ (exitOnFailure = true ∨ s.succeededJobCount = 0)) := by
  intro eof s
  unfold promptFailureCheck
  split_ifs with h
  · exact iff_of_true rfl ⟨Nat.pos_of_ne_zero h.1, h.2⟩
  · constructor
    · intro hc; cases hc
    · rintro ⟨h1, h2⟩
      exact absurd ⟨Nat.pos_iff_ne_zero.mp h1, h2⟩ h

/-- C5 (amended): for a task that reaches the output-collision check
(status `TaskInitialized`, all transitive prereqs `"done"`, no mutable
collision), the admission scan raises the hard output-collision error
exactly when the active-outputs set has size strictly below 100 and
some output data URI of the task is claimed in it by a different task;
the check is skipped whenever the size is 100 or more.  (The claim's
boundary — performed at size exactly 100 — is refuted by
`scanTask_collision_threshold_cex`.) -/
theorem scanTask_collision_threshold_spec (env : SchedEnv) (s : SchedState)
    (t : TaskObj)
    (h1 : s.jobStatusMap t.url = TaskStatus.initialized)
    (h2 : ∀ u ∈ env.prereqJobURLMap t.url, s.jobStatusMap u = TaskStatus.done)
    (h3 : ¬ ∃ d ∈ t.mutableDataObjs, ∃ p ∈ s.mutableDataObjs, d = p.2 ∧ t.url ≠ p.1) :
    scanTask env s t = Except.error SchedError.outputCollision ↔
      (s.activeDataObjs.length < 100 ∧
       ∃ d ∈ t.outputDataObjs, ∃ p ∈ s.activeDataObjs, d = p.2 ∧ t.url ≠ p.1) := by
  unfold scanTask
  rw [if_neg (not_not_intro h1), if_neg (by push_neg; exact h2), if_neg h3]
  split_ifs with h4 h5
  · exact iff_of_true rfl h4
  · exact iff_of_false not_false h4
  · exact iff_of_false not_false h4

/-- C5 counterexample: with exactly 100 active output claims, one of
which collides with the candidate task's output, the admission scan
does not raise — the hard collision check is skipped at size 100, while
the claim says it is performed whenever the size does not exceed
100. -/
theorem scanTask_collision_threshold_cex :
    exState100.activeDataObjs.length = 100 ∧
    exState100.jobStatusMap exTask100.url = TaskStatus.initialized ∧
    (∀ u ∈ exEnvNoPrereq.prereqJobURLMap exTask100.url,
      exState100.jobStatusMap u = TaskStatus.done) ∧
    (¬ ∃ d ∈ exTask100.mutableDataObjs, ∃ p ∈ exState100.mutableDataObjs,
      d = p.2 ∧ exTask100.url ≠ p.1) ∧
    (∃ d ∈ exTask100.outputDataObjs, ∃ p ∈ exState100.activeDataObjs,
      d = p.2 ∧ exTask100.url ≠ p.1) ∧
    isOutputCollisionError (scanTask exEnvNoPrereq exState100 exTask100) = false := by
  refine ⟨by decide, rfl, by decide, by decide, by decide, by decide⟩

theorem scanTask_collision_threshold_spec_witness :
    scanTask exEnvNoPrereq exStateSmall exTask100 =
      Except.error SchedError.outputCollision :=
  (scanTask_collision_threshold_spec exEnvNoPrereq exStateSmall exTask100 rfl
    (by decide) (by decide)).mpr (by decide)

/-- C6: over every well-formed run of the refresh loop, `finalize()` is
invoked exactly once for every task that reaches a terminal status
(`"done"` or `"fail"`) during the call without having started terminal;
and for message-driven completions the drain emits, in order, the
terminal status assignment, the `finalize()` call, and only then the
release of the task's outputs and mutables from the active sets. -/
theorem refreshTargets_finalize_exactly_once :
    (∀ (env : SchedEnv) (eof : Bool) (inps : List TickInput)
        (s' : SchedState) (evs : List Event),
      EnvWf env → wfRun env eof (initState env) inps = true →
      refreshRun env eof inps (initState env) = Except.ok (s', evs) →
      ∀ u, (s'.jobStatusMap u).Terminal → ¬ (initStatus env u).Terminal →
        evs.count (Event.finalize u) = 1) ∧
    (∀ (env : SchedEnv) (s : SchedState) (u : Url) (s2 : SchedState)
        (e2 : List Event),
      drainOne env s u Message.done = Except.ok (s2, e2) →
      e2 = [Event.setStatus u TaskStatus.done, Event.finalize u, Event.release u]) ∧
    (∀ (env : SchedEnv) (s : SchedState) (u : Url) (s2 : SchedState)
        (e2 : List Event),
      drainOne env s u Message.fail = Except.ok (s2, e2) →
      e2 = [Event.setStatus u TaskStatus.fail, Event.finalize u, Event.release u]) := by
  refine ⟨?_, ?_, ?_⟩
  · intro env eof inps s' evs hwf hwfrun hrun u hterm hni
    have h := (refreshRun_inv inps (initState_masterInv hwf) hwfrun hrun).finalize_count u
    rw [List.nil_append] at h
    rw [h, if_pos ⟨hterm, hni⟩]
  · intro env s u s2 e2 h
    injection h with h
    injection h with hs he
    rw [← he, SchedEnv.taskOf_url]
    rfl
  · intro env s u s2 e2 h
    injection h with h
    injection h with hs he
    rw [← he, SchedEnv.taskOf_url]
    rfl

theorem refreshTargets_finalize_exactly_once_witness :
    (refreshRun exEnvA true exInps (initState exEnvA)).map
        (fun r => r.2.count (Event.finalize "task://a")) = Except.ok 1 := by
  have hok : (refreshRun exEnvA true exInps (initState exEnvA)).map
      (fun r => r.1.jobStatusMap "task://a") = Except.ok TaskStatus.done := rfl
  cases hrun : refreshRun exEnvA true exInps (initState exEnvA) with
  | error e => rw [hrun] at hok; simp [Except.map] at hok
  | ok r =>
      obtain ⟨s', evs⟩ := r
      rw [hrun] at hok
      simp only [Except.map, Except.ok.injEq] at hok
      simp only [Except.map, Except.ok.injEq]
      exact refreshTargets_finalize_exactly_once.1 exEnvA true exInps s' evs
        (by decide) (by decide) hrun "task://a" (Or.inl hok) (by decide)

/-- C7 (corrected): the update performed after `time.sleep` is the IEEE
binary64 evaluation of `sleep_time + 0.1 if (sleep_time < 1) else 1`.
Because of float rounding, ten quiet iterations accumulate to
`0.9999999999999999 < 1` and the eleventh update yields
`1.0999999999999999 > 1.0`, so `sleep_time` can exceed 1.0 and the
update is not `min(1.0, sleep_time + 0.1)`.  What does hold: over every
well-formed run, `sleep_time` is one of the back-off iterates and never
exceeds `sleepIter 11` (the double `1.0999999999999999`); once
`sleep_time ≥ 1` the next update clamps it to exactly 1.0; and any
drain that dequeues at least one message resets it to 0. -/
theorem refreshTargets_sleep_backoff :
    (∀ (env : SchedEnv) (eof : Bool) (inps : List TickInput)
        (s' : SchedState) (evs : List Event),
      EnvWf env → wfRun env eof (initState env) inps = true →
      refreshRun env eof inps (initState env) = Except.ok (s', evs) →
      SleepReach s'.sleepTime ∧ s'.sleepTime ≤ sleepIter 11) ∧
    (∀ s : SchedState, 1 ≤ s.sleepTime → (sleepUpdate s).sleepTime = 1) ∧
    (∀ (env : SchedEnv) (ms : List (Url × Message)) (s s2 : SchedState)
        (e2 : List Event),
      ms ≠ [] → drainAll env ms s = Except.ok (s2, e2) → s2.sleepTime = 0) := by
  refine ⟨?_, ?_, ?_⟩
  · intro env eof inps s' evs hwf hwfrun hrun
    have h := (refreshRun_inv inps (initState_masterInv hwf) hwfrun hrun).sleep_bound
    exact ⟨h, sleepReach_le_sup h⟩
  · intro s h
    exact sleepStep_ge_one h
  · intro env ms s s2 e2 hne h
    exact drainAll_sleep_reset ms hne h

theorem refreshTargets_sleep_exceeds_one_cex :
    EnvWf exEnvQuiet ∧
    wfRun exEnvQuiet true (initState exEnvQuiet) quietInps = true ∧
    (refreshRun exEnvQuiet true quietInps (initState exEnvQuiet)).map
        (fun r => r.1.sleepTime) = Except.ok (sleepIter 11) ∧
    sleepIter 10 < 1 ∧
    1 < sleepIter 11 ∧
    sleepIter 11 = mkRat 4953959590107545 4503599627370496 :=
  ⟨by decide, by decide, by decide, by decide, by decide, by decide⟩

theorem refreshTargets_sleep_backoff_witness :
    (refreshRun exEnvQuiet true quietInps (initState exEnvQuiet)).map
        (fun r => decide (r.1.sleepTime ≤ sleepIter 11)) = Except.ok true := by
  cases hrun : refreshRun exEnvQuiet true quietInps (initState exEnvQuiet) with
  | error e =>
      have hok : (refreshRun exEnvQuiet true quietInps (initState exEnvQuiet)).map
          (fun _ => true) = Except.ok true := rfl
      rw [hrun] at hok
      simp [Except.map] at hok
  | ok r =>
      obtain ⟨s', evs⟩ := r
      simp only [Except.map, Except.ok.injEq]
      have h := (refreshTargets_sleep_backoff.1 exEnvQuiet true quietInps s' evs
        (by decide) (by decide) hrun).2
      exact decide_eq_true h

/-- C8: refuted as stated over the real program. The spec requires the
tie-breaking order of `tSort` to be deterministic for a given input,
but `_allNodes` is a Python `set` of id-hashed `PypeNode` objects, so
the loop order of line 139 varies between interpreter runs. Two
embeddings of the SAME graph (equal node set, equal edge list, equal
adjacency, both coherent) that differ only in set-iteration order yield
different topological orders. -/
theorem tSort_iteration_order_dependent :
    exC8g1.allNodes.Perm exC8g2.allNodes ∧
    exC8g1.allEdges = exC8g2.allEdges ∧
    exC8g1.outNodes = exC8g2.outNodes ∧
    exC8g1.inNodes = exC8g2.inNodes ∧
    exC8g1.Coherent ∧ exC8g2.Coherent ∧
    (exC8g1.tSort).1 = Except.ok ["c", "d", "a", "b"] ∧
    (exC8g2.tSort).1 = Except.ok ["a", "b", "c", "d"] ∧
    (exC8g1.tSort).1 ≠ (exC8g2.tSort).1 := by
  refine ⟨by decide, rfl, rfl, rfl, by decide, by decide, by decide, by decide, by decide⟩

/-- C9: `tSort` destructively consumes the adjacency structure: on a
successful call the returned (mutated) graph keeps `_allNodes` and
`_allEdges` but every node's in-neighbor and out-neighbor sets are
empty, so on any graph with at least one edge a second call to `tSort`
on the mutated object reports `circleDetected`. -/
theorem tSort_destructive_mutation (g : PypeGraph) (hg : g.Coherent)
    (L : List Url) (hok : (g.tSort).1 = Except.ok L) :
    (g.tSort).2.allNodes = g.allNodes ∧
    (g.tSort).2.allEdges = g.allEdges ∧
    (∀ u ∈ g.allNodes, (g.tSort).2.outNodes u = [] ∧ (g.tSort).2.inNodes u = []) ∧
    (g.allEdges ≠ [] →
      ((g.tSort).2.tSort).1 = Except.error TSortError.circleDetected) := by
  obtain ⟨h1, h2, h3⟩ := tSort_destructive_core hg hok
  refine ⟨h1, h2, h3, fun hne => ?_⟩
  apply tSort_second_call
  · intro u hu
    exact h3 u (h1 ▸ hu)
  · rw [h2]; exact hne

theorem tSort_destructive_mutation_witness :
    exChain.Coherent ∧ (exChain.tSort).1 = Except.ok ["a", "b"] ∧
    exChain.allEdges ≠ [] ∧
    ((exChain.tSort).2.tSort).1 = Except.error TSortError.circleDetected := by
  refine ⟨by decide, by decide, by decide, ?_⟩
  exact (tSort_destructive_mutation exChain (by decide) ["a", "b"]
    (by decide)).2.2.2 (by decide)

/-- C10: for every callback triple `(fn, args, kwargs)` with `fn`
callable, `args` a list and `kwargs` not `None`, `_runCallback` raises
the callback-argument-type error regardless of whether `kwargs` is a
dict, because line 414 tests `isinstance(callback[1], type(dict()))`
instead of `callback[2]`. -/
theorem runCallback_kwargs_type_error (fn args kwargs : PyVal)
    (hfn : fn.callable = true) (hargs : args.isinstanceList = true)
    (hkw : kwargs ≠ PyVal.pyNone) :
    runCallback (fn, args, kwargs) = Except.error SchedError.callbackTypeError := by
  have hfn2 : fn = PyVal.pyFunction := by
    cases fn <;> first | rfl | simp [PyVal.callable] at hfn
  have hargs2 : args = PyVal.pyList := by
    cases args <;> first | rfl | simp [PyVal.isinstanceList] at hargs
  subst hfn2 hargs2
  cases kwargs with
  | pyNone => exact absurd rfl hkw
  | pyFunction => rfl
  | pyList => rfl
  | pyDict => rfl
  | pyOther => rfl

theorem runCallback_kwargs_type_error_witness :
    PyVal.pyFunction.callable = true ∧ PyVal.pyList.isinstanceList = true ∧
    PyVal.pyDict ≠ PyVal.pyNone ∧
    runCallback (PyVal.pyFunction, PyVal.pyList, PyVal.pyDict) =
      Except.error SchedError.callbackTypeError :=
  ⟨rfl, rfl, by decide,
    runCallback_kwargs_type_error PyVal.pyFunction PyVal.pyList PyVal.pyDict
      rfl rfl (by decide)⟩
